import Mathlib

/-!
# bingo: package cache and file view

A shallow embedding of `langserver/internal/caches/package_cache.go`,
`langserver/internal/cache/view.go` and `langserver/config.go`.

Modelling conventions.

* A Go `map[K]V` is an association list with at most one live binding per key
  (`GoMap`); `get` is the map read, `set` the map assignment, `delete` the
  builtin `delete`.
* A `*packages.Package` is an index (`Ptr`) into a finite heap of `Package`
  records; the heap is immutable for this layer. `Imports` is a Go map, ranged
  over in an unspecified order: the embedding carries the bindings in the order
  the `range` visits them, and every statement is quantified over that order.
* A Go `error` result is `Option GoError` (`none` is `nil`); a possibly nil
  pointer result is `Option Ptr`; a run-time panic (index out of range) is the
  outer `Option` being `none`.
* The external compiler (`packages.Load`), `filepath.Dir`, the Unicode case
  table and `runtime.GOOS` are fields of the environment `Env`.
* A `range` over a Go map visits every live binding exactly once in an
  unspecified order (`RangeOrder`); `Lookup` and `Iterate` take that order as
  an argument and their statements hold for every such order.
-/

namespace Bingo

/-! ## Go maps -/

/-- A Go map as an association list. -/
abbrev GoMap (κ ν : Type) := List (κ × ν)

namespace GoMap

variable {κ ν : Type} [DecidableEq κ]

/-- Map read `m[k]`: the bound value, or `none` when the key is absent. -/
def get : GoMap κ ν → κ → Option ν
  | [], _ => none
  | (k', v) :: m, k => if k' = k then some v else get m k

/-- The builtin `delete(m, k)`. -/
def delete (m : GoMap κ ν) (k : κ) : GoMap κ ν :=
  m.filter (fun e => decide (e.1 ≠ k))

/-- Map assignment `m[k] = v`. -/
def set (m : GoMap κ ν) (k : κ) (v : ν) : GoMap κ ν :=
  (k, v) :: delete m k

end GoMap

/-! ## Data model -/

/-- A Go `error` value. -/
abbrev GoError := String

/-- A `*packages.Package`: an index into the heap of packages. -/
abbrev Ptr := Nat

/-- An `*ast.File`, identified by its position base. -/
structure AstFile where
  Pos : Nat
deriving DecidableEq, Repr

/-- A `*token.File`. -/
structure TokenFile where
  Name : String
  Base : Nat
deriving DecidableEq, Repr

/-- The fields of `packages.Package` this layer reads. -/
structure Package where
  PkgPath : String
  CompiledGoFiles : List String
  Imports : List (String × Ptr)
  Syntax : List (Option AstFile)
deriving DecidableEq, Repr

/-- The package a pointer outside the heap is read as: no files, no imports. -/
def Package.empty : Package :=
  { PkgPath := "", CompiledGoFiles := [], Imports := [], Syntax := [] }

/-- The environment the cache runs in. -/
structure Env where
  /-- The value of `runtime.GOOS`. -/
  GOOS : String
  /-- All package objects the compiler hands out. -/
  heap : List Package
  /-- The library function `filepath.Dir`. -/
  filepathDir : String → String
  /-- The library table `unicode.ToLower` on non-ASCII runes. -/
  lowerTable : Char → Char
  /-- The call `packages.Load(cfg, pattern)`: its `n`-th invocation with the given pattern. -/
  packagesLoad : Nat → String → List Ptr × Option GoError

/-- Pointer dereference. -/
def Env.deref (E : Env) (p : Ptr) : Package :=
  E.heap.getD p Package.empty

/-- The constant `windowsOS`. -/
def windowsOS : String := "windows"

/-! ## String helpers from the Go library -/

/-- The library function `strings.Split(s, sep)` for a one-character separator. -/
def stringsSplit : List Char → Char → List (List Char)
  | [], _ => [[]]
  | c :: cs, sep =>
    if c = sep then [] :: stringsSplit cs sep
    else
      match stringsSplit cs sep with
      | [] => [[c]]
      | hd :: tl => (c :: hd) :: tl

/-- The library function `strings.Join(parts, sep)` for a one-character separator. -/
def stringsJoin : List (List Char) → Char → List Char
  | [], _ => []
  | [x], _ => x
  | x :: y :: rest, sep => x ++ sep :: stringsJoin (y :: rest) sep

/-- The library function `unicode.ToLower`: ASCII letters shift by 32, other ASCII runes are fixed, the rest follow the table. -/
def unicodeToLower (tbl : Char → Char) (c : Char) : Char :=
  if c.toNat < 128 then
    (if 65 ≤ c.toNat ∧ c.toNat ≤ 90 then Char.ofNat (c.toNat + 32) else c)
  else tbl c

/-- The library function `strings.ToLower`. -/
def stringsToLower (tbl : Char → Char) (s : List Char) : List Char :=
  s.map (unicodeToLower tbl)

/-- The library call `strings.Replace(s, old, new, -1)` for one-character `old` and `new`. -/
def stringsReplace (s : List Char) (old new : Char) : List Char :=
  s.map (fun c => if c = old then new else c)

/-! ## package_cache.go -/

/-- The type `packagePool`. -/
abbrev packagePool := GoMap String Ptr

/-- The struct `PackageCache` (without its lock), with a ghost counter of compiler invocations. -/
structure PackageCache where
  pool : packagePool
  rootDir : String
  /-- Ghost: how many times `packages.Load` has been invoked so far. -/
  loads : Nat
deriving DecidableEq, Repr

/-- The constructor `New`. -/
def New : PackageCache :=
  { pool := [], rootDir := "", loads := 0 }

/-- The function `getLoadDir`; `none` is the index-out-of-range panic of `dir[0]`. -/
def getLoadDir (E : Env) (dir : String) : Option String :=
  if E.GOOS ≠ windowsOS then some dir
  else
    match dir.data with
    | [] => none
    | c :: rest => if c = '/' then some (String.mk rest) else some dir

/-- The function `getCacheKeyFromDir`. -/
def getCacheKeyFromDir (E : Env) (dir : String) : String :=
  if E.GOOS ≠ windowsOS then dir
  else
    let dirs := stringsSplit dir.data ':'
    let dir1 :=
      if 2 ≤ dirs.length then
        stringsJoin (dirs.set 0 (stringsToLower E.lowerTable (dirs.headD []))) ':'
      else dir.data
    String.mk (stringsReplace dir1 '\\' '/')

/-- The function `getCacheKeyFromFile`. -/
def getCacheKeyFromFile (E : Env) (filename : String) : String :=
  getCacheKeyFromDir E (E.filepathDir filename)

/-- The method `cache`, with a fuel bound on the recursion depth; `none` means the fuel ran out. -/
def cacheFuel (E : Env) : Nat → packagePool → Ptr → Option packagePool
  | 0, _, _ => none
  | fuel + 1, pool, pkg =>
    match (E.deref pkg).CompiledGoFiles with
    | [] => some pool
    | file :: _ =>
      let cacheKey := getCacheKeyFromFile E file
      if (pool.get cacheKey).isSome then some pool
      else
        ((E.deref pkg).Imports.map Prod.snd).foldlM
          (fun pl importPkg => cacheFuel E fuel pl importPkg) (pool.set cacheKey pkg)

/-- The method `cache`: the recursion run with fuel one more than the heap size, which always suffices (`cacheFuel_cache`). -/
def cache (E : Env) (pool : packagePool) (pkg : Ptr) : packagePool :=
  (cacheFuel E (E.heap.length + 1) pool pkg).getD pool

/-- The method `push`. -/
def push (E : Env) (pool : packagePool) (pkgList : List Ptr) : packagePool :=
  pkgList.foldl (cache E) pool

/-- The method `buildCache`: the returned error and the cache afterwards. -/
def buildCache (E : Env) (c : PackageCache) : Option (Option GoError × PackageCache) :=
  let c1 : PackageCache := { c with pool := [] }
  match getLoadDir E c1.rootDir with
  | none => none
  | some loadDir =>
    let r := E.packagesLoad c1.loads (loadDir ++ "/...")
    let c2 : PackageCache := { c1 with loads := c1.loads + 1 }
    match r.2 with
    | some err => some (some err, c2)
    | none => some (none, { c2 with pool := push E c2.pool r.1 })

/-- The method `Init`. -/
def Init (E : Env) (c : PackageCache) (root : String) : Option (Option GoError × PackageCache) :=
  buildCache E { c with rootDir := root }

/-- The cache key `Load` computes from an already trimmed directory. -/
def loadCacheKey (E : Env) (loadDir : String) : String :=
  if E.GOOS = windowsOS then getCacheKeyFromDir E loadDir else loadDir

/-- The method `Load`: the returned unit and error, and the cache afterwards. -/
def Load (E : Env) (c : PackageCache) (pkgDir : String) :
    Option ((Option Ptr × Option GoError) × PackageCache) :=
  match getLoadDir E pkgDir with
  | none => none
  | some loadDir =>
    let cacheKey := loadCacheKey E loadDir
    match c.pool.get cacheKey with
    | some pkg => some ((some pkg, none), c)
    | none =>
      match buildCache E c with
      | none => none
      | some (_, c') => some ((c'.pool.get cacheKey, none), c')

/-! ## view.go -/

/-- A `source.URI`. -/
abbrev URI := String

/-- A non-nil `[]byte`; a nil slice is `none` of `Option Bytes`. -/
abbrev Bytes := List UInt8

/-- A `*File`: an index into the view's heap of files. -/
abbrev FilePtr := Nat

/-- The struct `File` (without the back-reference to its view). -/
structure File where
  URI : URI
  content : Option Bytes
  ast : Option AstFile
  token : Option TokenFile
  pkg : Option Ptr
deriving DecidableEq, Repr

/-- Modelled from the spec: the method `File.setContent` of `file.go`, which is not among the
sources; the File's content becomes the given bytes. -/
def File.setContent (f : File) (content : Option Bytes) : File :=
  { f with content := content }

/-- The struct `View` (without its locks): the field `Config.Dir`, the registry, the File objects
it points to, and the overlay. -/
structure View where
  ConfigDir : String
  files : GoMap URI FilePtr
  fileHeap : List File
  tempOverlay : GoMap String Bytes
deriving DecidableEq, Repr

/-- What one call of `packages.Load` does as seen from the view: the calls it makes to the
`ParseFile` hook, in order, and the units and error it returns. -/
structure LoadOutcome where
  parsed : List (String × Option Bytes)
  pkgs : List Ptr
  err : Option GoError

/-- The environment the view runs in. -/
structure ViewEnv where
  /-- All package objects the compiler hands out. -/
  heap : List Package
  /-- The method `URI.Filename` of the package `source`. -/
  uriFilename : URI → Except GoError String
  /-- The function `source.ToURI`. -/
  toURI : String → URI
  /-- The callback field `getLoadDir` of the view. -/
  getLoadDir : String → String
  /-- The lookup `v.Config.Fset.File(fAST.Pos())` once the load has returned. -/
  fsetFile : AstFile → Option TokenFile
  /-- The call `packages.Load(v.Config, query)` with `Config.Dir` as first argument. -/
  packagesLoad : String → String → LoadOutcome

/-- Pointer dereference. -/
def ViewEnv.deref (E : ViewEnv) (p : Ptr) : Package :=
  E.heap.getD p Package.empty

/-- The constructor `NewView`. -/
def NewView : View :=
  { ConfigDir := "", files := [], fileHeap := [], tempOverlay := [] }

/-- The File a pointer refers to. -/
def View.file (v : View) (f : FilePtr) : Option File :=
  v.fileHeap[f]?

/-- Assignment through a File pointer. -/
def View.setFile (v : View) (f : FilePtr) (file : File) : View :=
  { v with fileHeap := v.fileHeap.set f file }

/-- The method `HasParsed`. -/
def View.HasParsed (v : View) (uri : URI) : Bool :=
  match v.files.get uri with
  | none => false
  | some f =>
    match v.file f with
    | none => false
    | some file => file.pkg.isSome

/-- The method `parseFile`, as far as the view's state goes: the syntax tree it returns comes
from the library parser and goes to the compiler. -/
def View.parseFile (v : View) (filename : String) (src : Option Bytes) : View :=
  match src with
  | some b => { v with tempOverlay := v.tempOverlay.set filename b }
  | none => v

/-- The method `getFile`: the File returned and the view afterwards. -/
def View.getFile (v : View) (uri : URI) : FilePtr × View :=
  match v.files.get uri with
  | some f => (f, v)
  | none =>
    let f := v.fileHeap.length
    (f, { v with
            fileHeap := v.fileHeap ++
              [{ URI := uri, content := none, ast := none, token := none, pkg := none }],
            files := v.files.set uri f })

/-- The method `GetFile`. -/
def View.GetFile (v : View) (uri : URI) : FilePtr × View :=
  v.getFile uri

/-- The body of the inner loop of `parse` for one syntax tree of one unit. -/
def View.populate (E : ViewEnv) (v : View) (pkg : Ptr) (fAST : Option AstFile) : View :=
  match fAST with
  | none => v
  | some ast =>
    match E.fsetFile ast with
    | none => v
    | some fToken =>
      let r := v.getFile (E.toURI fToken.Name)
      match r.2.file r.1 with
      | none => r.2
      | some file =>
        let v2 : View :=
          if file.content.isNone then
            { r.2 with tempOverlay := r.2.tempOverlay.delete fToken.Name }
          else r.2
        let file2 : File :=
          if file.content.isNone then file.setContent (r.2.tempOverlay.get fToken.Name)
          else file
        v2.setFile r.1 { file2 with token := some fToken, ast := some ast, pkg := some pkg }

/-- The File the loop body of `parse` leaves behind, given the File `getFile` returned and the
overlay at that moment. -/
def populatedFile (overlay : GoMap String Bytes) (file0 : File) (pkg : Ptr) (ast : AstFile)
    (tok : TokenFile) : File :=
  { URI := file0.URI,
    content := if file0.content.isNone then overlay.get tok.Name else file0.content,
    ast := some ast, token := some tok, pkg := some pkg }

/-- The content-override hook calls of one load, applied in order. -/
def View.runHooks (v : View) (calls : List (String × Option Bytes)) : View :=
  calls.foldl (fun w call => w.parseFile call.1 call.2) v

/-- The two nested loops of `parse` over the units and their syntax trees. -/
def View.populateAll (E : ViewEnv) (v : View) (pkgs : List Ptr) : View :=
  pkgs.foldl
    (fun w pkg => (E.deref pkg).Syntax.foldl (fun w2 fAST => w2.populate E pkg fAST) w) v

/-- The method `parse`: the returned error and the view afterwards. -/
def View.parse (E : ViewEnv) (v : View) (uri : URI) : Option GoError × View :=
  match E.uriFilename uri with
  | Except.error err => (some err, v)
  | Except.ok path =>
    let v1 : View := { v with ConfigDir := E.getLoadDir path }
    let out := E.packagesLoad v1.ConfigDir ("file=" ++ path)
    let v2 := v1.runHooks out.parsed
    if out.pkgs.length = 0 then
      (some (out.err.getD ("no packages found for " ++ path)), v2)
    else
      (none, v2.populateAll E out.pkgs)

/-- The (unit, syntax tree) pairs of a load result in the order `parse` traverses them. -/
def treesOf (E : ViewEnv) : List Ptr → List (Ptr × Option AstFile)
  | [] => []
  | pkg :: pkgs => (E.deref pkg).Syntax.map (fun fAST => (pkg, fAST)) ++ treesOf E pkgs

/-- The filename under which a (unit, syntax tree) pair populates a File, when it does. -/
def populatedName (E : ViewEnv) (x : Ptr × Option AstFile) : Option String :=
  match x.2 with
  | none => none
  | some ast => (E.fsetFile ast).map (fun fToken => fToken.Name)

/-- The content the hook calls of one load leave in the overlay for a filename: the last non-nil
content a call supplied for it. -/
def suppliedContent (calls : List (String × Option Bytes)) (filename : String) : Option Bytes :=
  calls.foldl
    (fun acc call => if call.1 = filename then (if call.2.isSome then call.2 else acc) else acc)
    none

/-- Every registered pointer refers to a File of the heap, and no two URIs share a File. -/
def View.WF (v : View) : Prop :=
  (∀ u f, v.files.get u = some f → f < v.fileHeap.length) ∧
    (∀ u1 u2 f, v.files.get u1 = some f → v.files.get u2 = some f → u1 = u2)

/-- The content `b` for filename `n` waits in the overlay, and the File under `U`, if any, has no content yet. -/
def View.Pending (v : View) (U : URI) (n : String) (b : Bytes) : Prop :=
  (∀ f x, v.files.get U = some f → v.file f = some x → x.content = none) ∧
    v.tempOverlay.get n = some b

/-- The File under `U` has content `b` and the overlay has no entry for filename `n`. -/
def View.Merged (v : View) (U : URI) (n : String) (b : Bytes) : Prop :=
  ∃ f x, v.files.get U = some f ∧ v.file f = some x ∧ x.content = some b ∧
    v.tempOverlay.get n = none

/-! ## Reachability and the specification vocabulary -/

/-- The cache key of a unit: the key of its first compiled file, when it has one. -/
def cacheKeyOf (E : Env) (p : Ptr) : Option String :=
  (E.deref p).CompiledGoFiles.head?.map (getCacheKeyFromFile E)

/-- The units a unit imports, in the order `range pkg.Imports` visits them. -/
def importsOf (E : Env) (p : Ptr) : List Ptr :=
  (E.deref p).Imports.map Prod.snd

/-- Reachability from a list of units through zero or more `Imports` edges. -/
inductive Reachable (E : Env) (roots : List Ptr) : Ptr → Prop
  | root {p : Ptr} : p ∈ roots → Reachable E roots p
  | step {p q : Ptr} : Reachable E roots p → q ∈ importsOf E p → Reachable E roots q

/-- A unit is stored in the pool: the pool binds the unit's own cache key to it. -/
def Stored (E : Env) (pool : packagePool) (p : Ptr) : Prop :=
  ∃ k, cacheKeyOf E p = some k ∧ pool.get k = some p

/-- Reachability through `Imports` edges that leave units stored in the pool. -/
inductive ReachableStored (E : Env) (pool : packagePool) (roots : List Ptr) : Ptr → Prop
  | root {p : Ptr} : p ∈ roots → ReachableStored E pool roots p
  | step {p q : Ptr} : ReachableStored E pool roots p → Stored E pool p →
      q ∈ importsOf E p → ReachableStored E pool roots q

/-- Every binding of `pool` is a binding of `pool2`. -/
def PoolLe (pool pool2 : packagePool) : Prop :=
  ∀ k v, pool.get k = some v → pool2.get k = some v

/-- Every binding of `pool2` that `pool` lacks is a unit under its own key whose imports with files all have their key bound in `pool2`. -/
def NewClosed (E : Env) (pool pool2 : packagePool) : Prop :=
  ∀ k q, pool2.get k = some q → pool.get k = none →
    cacheKeyOf E q = some k ∧
      ∀ r ∈ importsOf E q, ∀ kr, cacheKeyOf E r = some kr → (pool2.get kr).isSome

/-- The heap slots whose unit has files and whose key the pool lacks. -/
def missingSet (E : Env) (pool : packagePool) : Finset Nat :=
  (Finset.range E.heap.length).filter
    (fun i => ∃ k, cacheKeyOf E i = some k ∧ pool.get k = none)

/-- What a completed run of `cache` over the units `l` guarantees of the pool it returns. -/
structure CachePost (E : Env) (pool : packagePool) (l : List Ptr) (pool2 : packagePool) : Prop where
  le : PoolLe pool pool2
  keys : ∀ r ∈ l, ∀ kr, cacheKeyOf E r = some kr → (pool2.get kr).isSome
  closed : NewClosed E pool pool2

/-! ## Example environments -/

/-- A `filepath.Dir` for clean slash-separated paths: the text before the last slash. -/
def exampleDir (s : String) : String :=
  String.mk ((s.data.reverse.dropWhile (fun c => decide (c ≠ '/'))).drop 1).reverse

/-- Three units: `r/a`, its test variant compiled from the same directory, and `lib/u`, imported by the test variant only. -/
def exampleHeap : List Package :=
  [ { PkgPath := "r/a", CompiledGoFiles := ["/r/a/a.go"], Imports := [], Syntax := [] },
    { PkgPath := "r/a [r/a.test]", CompiledGoFiles := ["/r/a/a.go", "/r/a/a_test.go"],
      Imports := [("lib/u", 2)], Syntax := [] },
    { PkgPath := "lib/u", CompiledGoFiles := ["/lib/u/u.go"], Imports := [], Syntax := [] } ]

/-- A compiler that returns the unit `r/a` and its test variant for every pattern. -/
def exampleEnv : Env :=
  { GOOS := "linux", heap := exampleHeap, filepathDir := exampleDir, lowerTable := id,
    packagesLoad := fun _ _ => ([0, 1], none) }

/-- A compiler that fails on every invocation. -/
def failingEnv : Env :=
  { GOOS := "linux", heap := exampleHeap, filepathDir := exampleDir, lowerTable := id,
    packagesLoad := fun _ _ => ([], some "exit status 1") }

/-- A Windows environment with the same units. -/
def windowsEnv : Env :=
  { GOOS := "windows", heap := exampleHeap, filepathDir := exampleDir, lowerTable := id,
    packagesLoad := fun _ _ => ([0, 1], none) }

/-- Two characters differ at most in being `\` instead of `/`. -/
def sepVariant (c d : Char) : Prop :=
  c = d ∨ (c = '\\' ∧ d = '/') ∨ (c = '/' ∧ d = '\\')

/-- Two characters differ at most in case: `unicode.ToLower` identifies them. -/
def caseVariant (tbl : Char → Char) (c d : Char) : Prop :=
  unicodeToLower tbl c = unicodeToLower tbl d

/-- A load of the unit `r/a` in which `a.go` yields no syntax tree and `b.go` does; URIs are
filenames behind `file://`. -/
def exampleViewEnv : ViewEnv :=
  { heap := [{ PkgPath := "r/a", CompiledGoFiles := ["/r/a/a.go", "/r/a/b.go"], Imports := [],
               Syntax := [some { Pos := 1 }] }],
    uriFilename := fun u => Except.ok (String.mk (u.data.drop 7)),
    toURI := fun n => "file://" ++ n,
    getLoadDir := exampleDir,
    fsetFile := fun a => if a.Pos = 1 then some { Name := "/r/a/b.go", Base := 1 } else none,
    packagesLoad := fun _ _ => { parsed := [("/r/a/b.go", some [98])], pkgs := [0], err := none } }

/-- A load of the unit `r/a` with the one file `a.go`, during which the hook receives the content `b` for it. -/
def overlayViewEnv (b : Bytes) : ViewEnv :=
  { heap := [{ PkgPath := "r/a", CompiledGoFiles := ["/r/a/a.go"], Imports := [],
               Syntax := [some { Pos := 1 }] }],
    uriFilename := fun u => Except.ok (String.mk (u.data.drop 7)),
    toURI := fun n => "file://" ++ n,
    getLoadDir := exampleDir,
    fsetFile := fun a => if a.Pos = 1 then some { Name := "/r/a/a.go", Base := 1 } else none,
    packagesLoad := fun _ _ => { parsed := [("/r/a/a.go", some b)], pkgs := [0], err := none } }

/-! ## Iteration over the pool, lookups and traces -/

/-- The order in which one `range` over a Go map visits its bindings: every live binding exactly
once, in no particular order. -/
def RangeOrder {ν : Type} (m : GoMap String ν) (order : List (String × ν)) : Prop :=
  (order.map Prod.fst).Nodup ∧ ∀ k v, (k, v) ∈ order ↔ m.get k = some v

/-- The loop of `Lookup` over the bindings in the order the `range` visits them. -/
def lookupLoop (E : Env) (pkgPath : String) : List (String × Ptr) → Option Ptr
  | [] => none
  | e :: rest => if (E.deref e.2).PkgPath = pkgPath then some e.2 else lookupLoop E pkgPath rest

/-- The method `Lookup`: the returned unit and the cache afterwards. -/
def Lookup (E : Env) (c : PackageCache) (order : List (String × Ptr)) (pkgPath : String) :
    Option Ptr × PackageCache :=
  (lookupLoop E pkgPath order, c)

/-- The loop of `Iterate` for a visitor with state `σ`: the returned error, the visitor's state
afterwards, and the ghost trace of the visitor calls made, each with the binding visited and the
error the call returned. -/
def iterateLoop {σ : Type} (visit : σ → Ptr → σ × Option GoError) :
    List (String × Ptr) → σ → Option GoError × σ × List ((String × Ptr) × Option GoError)
  | [], s => (none, s, [])
  | e :: rest, s =>
    match visit s e.2 with
    | (s1, some err) => (some err, s1, [(e, some err)])
    | (s1, none) =>
      let r := iterateLoop visit rest s1
      (r.1, r.2.1, (e, none) :: r.2.2)

/-- A trace is a run of the visitor: starting in state `s`, each entry is one call `visit` made
on the unit of the binding, in the state the previous call left, with the error that call
returned; `s2` is the state after the last call. -/
inductive VisitRun {σ : Type} (visit : σ → Ptr → σ × Option GoError) :
    σ → List ((String × Ptr) × Option GoError) → σ → Prop
  | nil (s : σ) : VisitRun visit s [] s
  | cons {s s1 s2 : σ} {e : String × Ptr} {r : Option GoError}
      {rest : List ((String × Ptr) × Option GoError)} :
      visit s e.2 = (s1, r) → VisitRun visit s1 rest s2 → VisitRun visit s ((e, r) :: rest) s2

/-- The method `Iterate`: the result of the loop and the cache afterwards. -/
def Iterate {σ : Type} (c : PackageCache) (order : List (String × Ptr))
    (visit : σ → Ptr → σ × Option GoError) (s : σ) :
    (Option GoError × σ × List ((String × Ptr) × Option GoError)) × PackageCache :=
  (iterateLoop visit order s, c)

/-- The method `HasParsed` as a step of the view: the answer and the view afterwards. -/
def View.HasParsedRun (v : View) (uri : URI) : Bool × View :=
  match v.files.get uri with
  | none => (false, v)
  | some f =>
    match v.file f with
    | none => (false, v)
    | some file => (file.pkg.isSome, v)

/-- The last (unit, syntax tree) pair of a traversal that populates the File under the URI `U`. -/
def lastTreeFor (E : ViewEnv) (U : URI) (trees : List (Ptr × Option AstFile)) :
    Option (Ptr × Option AstFile) :=
  trees.foldl
    (fun acc x => if (populatedName E x).map E.toURI = some U then some x else acc) none

/-- The states of the cache reachable from `New()` through `Init`, `Load`, `push` and `cache`. -/
inductive ReachableCache (E : Env) : PackageCache → Prop
  | new : ReachableCache E New
  | init {c c2 : PackageCache} {root : String} {e : Option GoError} :
      ReachableCache E c → Init E c root = some (e, c2) → ReachableCache E c2
  | load {c c2 : PackageCache} {d : String} {r : Option Ptr × Option GoError} :
      ReachableCache E c → Load E c d = some (r, c2) → ReachableCache E c2
  | push {c : PackageCache} (pkgList : List Ptr) :
      ReachableCache E c → ReachableCache E { c with pool := push E c.pool pkgList }
  | cache {c : PackageCache} (pkg : Ptr) :
      ReachableCache E c → ReachableCache E { c with pool := cache E c.pool pkg }

/-- The method `cache` with fuel, instrumented with the ghost list of the units it inserted, which
are the units whose `Imports` it ranged over, in order. -/
def cacheTrace (E : Env) : Nat → packagePool → Ptr → Option (packagePool × List Ptr)
  | 0, _, _ => none
  | fuel + 1, pool, pkg =>
    match (E.deref pkg).CompiledGoFiles with
    | [] => some (pool, [])
    | file :: _ =>
      let cacheKey := getCacheKeyFromFile E file
      if (pool.get cacheKey).isSome then some (pool, [])
      else
        ((E.deref pkg).Imports.map Prod.snd).foldlM
          (fun st importPkg =>
            (cacheTrace E fuel st.1 importPkg).map (fun r => (r.1, st.2 ++ r.2)))
          (pool.set cacheKey pkg, [pkg])

/-- What the trace of a completed run over the units `roots` satisfies. -/
structure TracePost (E : Env) (pool : packagePool) (roots : List Ptr) (pool2 : packagePool)
    (tr : List Ptr) : Prop where
  le : PoolLe pool pool2
  fresh : ∀ u ∈ tr, ∃ k, cacheKeyOf E u = some k ∧ pool.get k = none ∧ (pool2.get k).isSome
  nodup : (tr.map (cacheKeyOf E)).Nodup
  reach : ∀ u ∈ tr, Reachable E roots u

/-- The File under the URI `U` carries the syntax tree, token file and owning unit of the pair `x`. -/
def View.HoldsTree (E : ViewEnv) (v : View) (U : URI) (x : Ptr × Option AstFile) : Prop :=
  ∃ f file ast tok, v.files.get U = some f ∧ v.file f = some file ∧ x.2 = some ast ∧
    E.fsetFile ast = some tok ∧ file.ast = some ast ∧ file.token = some tok ∧
    file.pkg = some x.1

/-! ## config.go -/

/-- The struct `Config`. -/
structure Config where
  DisableFuncSnippet : Bool
  EnableGlobalCache : Bool
  DiagnosticsStyle : String
  FormatStyle : String
  GoimportsLocalPrefix : String
  MaxParallelism : Int
  GolistDuration : Int
deriving DecidableEq, Repr

/-- Modelled from the spec: the struct `InitializationOptions` is declared outside the given
sources; these are the seven pointer fields `Apply` reads, a nil pointer being `none`. -/
structure InitializationOptions where
  DisableFuncSnippet : Option Bool
  DiagnosticsStyle : Option String
  EnableGlobalCache : Option Bool
  FormatStyle : Option String
  GoimportsLocalPrefix : Option String
  MaxParallelism : Option Int
  GolistDuration : Option Int
deriving DecidableEq, Repr

/-- The method `Config.Apply`. -/
def Config.Apply (c : Config) (o : Option InitializationOptions) : Config :=
  match o with
  | none => c
  | some o =>
    let c1 : Config :=
      match o.DisableFuncSnippet with
      | some x => { c with DisableFuncSnippet := x }
      | none => c
    let c2 : Config :=
      match o.DiagnosticsStyle with
      | some x => { c1 with DiagnosticsStyle := x }
      | none => c1
    let c3 : Config :=
      match o.EnableGlobalCache with
      | some x => { c2 with EnableGlobalCache := x }
      | none => c2
    let c4 : Config :=
      match o.FormatStyle with
      | some x => { c3 with FormatStyle := x }
      | none => c3
    let c5 : Config :=
      match o.GoimportsLocalPrefix with
      | some x => { c4 with GoimportsLocalPrefix := x }
      | none => c4
    let c6 : Config :=
      match o.MaxParallelism with
      | some x => { c5 with MaxParallelism := x }
      | none => c5
    match o.GolistDuration with
    | some x => { c6 with GolistDuration := x }
    | none => c6

/-! ## Further example environments -/

/-- Two units that import each other, and a third one both import. -/
def cyclicEnv : Env :=
  { GOOS := "linux",
    heap :=
      [ { PkgPath := "r/a", CompiledGoFiles := ["/r/a/a.go"], Imports := [("r/b", 1), ("r/c", 2)],
          Syntax := [] },
        { PkgPath := "r/b", CompiledGoFiles := ["/r/b/b.go"], Imports := [("r/a", 0), ("r/c", 2)],
          Syntax := [] },
        { PkgPath := "r/c", CompiledGoFiles := ["/r/c/c.go"], Imports := [], Syntax := [] } ],
    filepathDir := exampleDir, lowerTable := id,
    packagesLoad := fun _ _ => ([0, 1, 2], none) }

/-- A root unit `r/a` that imports `lib/b`, which imports `lib/c`; the compiler returns the root
unit only, so the two libraries are reached through `Imports` edges alone. -/
def transitiveEnv : Env :=
  { GOOS := "linux",
    heap :=
      [ { PkgPath := "r/a", CompiledGoFiles := ["/r/a/a.go"], Imports := [("lib/b", 1)],
          Syntax := [] },
        { PkgPath := "lib/b", CompiledGoFiles := ["/lib/b/b.go"], Imports := [("lib/c", 2)],
          Syntax := [] },
        { PkgPath := "lib/c", CompiledGoFiles := ["/lib/c/c.go"], Imports := [], Syntax := [] } ],
    filepathDir := exampleDir, lowerTable := id,
    packagesLoad := fun _ _ => ([0], none) }

/-- A visitor that counts its calls and fails on the unit `bad`. -/
def failingVisitor (bad : Ptr) (n : Nat) (p : Ptr) : Nat × Option GoError :=
  (n + 1, if p = bad then some "boom" else none)

/-- An environment in which no URI has a filename, while every load would return one unit. -/
def noFilenameEnv : ViewEnv :=
  { heap := [{ PkgPath := "r/a", CompiledGoFiles := ["/r/a/a.go"], Imports := [],
               Syntax := [some { Pos := 1 }] }],
    uriFilename := fun _ => Except.error "only file URIs are supported",
    toURI := fun n => "file://" ++ n,
    getLoadDir := exampleDir,
    fsetFile := fun a => if a.Pos = 1 then some { Name := "/r/a/a.go", Base := 1 } else none,
    packagesLoad := fun _ _ => { parsed := [], pkgs := [0], err := none } }

/-- A load of `a.go` that returns the unit `r/a` and then its test variant, each with its own
syntax tree of `a.go`. -/
def twoUnitsEnv : ViewEnv :=
  { heap :=
      [ { PkgPath := "r/a", CompiledGoFiles := ["/r/a/a.go"], Imports := [],
          Syntax := [some { Pos := 1 }] },
        { PkgPath := "r/a [r/a.test]", CompiledGoFiles := ["/r/a/a.go"], Imports := [],
          Syntax := [some { Pos := 2 }] } ],
    uriFilename := fun u => Except.ok (String.mk (u.data.drop 7)),
    toURI := fun n => "file://" ++ n,
    getLoadDir := exampleDir,
    fsetFile := fun a => some { Name := "/r/a/a.go", Base := a.Pos },
    packagesLoad := fun _ _ => { parsed := [], pkgs := [0, 1], err := none } }

/-- A load that yields no unit and no error. -/
def emptyLoadEnv : ViewEnv :=
  { heap := [],
    uriFilename := fun u => Except.ok (String.mk (u.data.drop 7)),
    toURI := fun n => "file://" ++ n,
    getLoadDir := exampleDir,
    fsetFile := fun _ => none,
    packagesLoad := fun _ _ => { parsed := [], pkgs := [], err := none } }

/-! ## Lemmas on Go maps -/

namespace GoMap

variable {κ ν : Type} [DecidableEq κ]

theorem get_delete_self (m : GoMap κ ν) (k : κ) : (delete m k).get k = none := by
  induction m with
  | nil => rfl
  | cons e m ih =>
    obtain ⟨k1, v1⟩ := e
    by_cases h : k1 = k
    · simp [delete, List.filter, h] at ih ⊢
      exact ih
    · simp [delete, List.filter, h, get] at ih ⊢
      exact ih

theorem get_delete_other (m : GoMap κ ν) {k k2 : κ} (h : k2 ≠ k) :
    (delete m k).get k2 = m.get k2 := by
  induction m with
  | nil => rfl
  | cons e m ih =>
    obtain ⟨k1, v1⟩ := e
    by_cases h1 : k1 = k
    · have h2 : ¬ k1 = k2 := fun e => h (e ▸ h1)
      simp [delete, List.filter, h1, get] at ih ⊢
      subst h1
      simp [h2, ih]
    · simp [delete, List.filter, h1, get] at ih ⊢
      rw [ih]

theorem get_set_self (m : GoMap κ ν) (k : κ) (v : ν) : (set m k v).get k = some v := by
  simp [set, get]

theorem get_set_other (m : GoMap κ ν) {k k2 : κ} (v : ν) (h : k2 ≠ k) :
    (set m k v).get k2 = m.get k2 := by
  have h2 : ¬ k = k2 := fun e => h e.symm
  simp [set, get, h2, get_delete_other m h]

end GoMap

/-! ## The recursion of `cache` -/

theorem cacheKeyOf_some_lt {E : Env} {p : Ptr} {k : String} (h : cacheKeyOf E p = some k) :
    p < E.heap.length := by
  by_contra hlt
  have hd : E.deref p = Package.empty := by
    unfold Env.deref
    rw [List.getD_eq_default _ _ (Nat.le_of_not_lt hlt)]
  simp [cacheKeyOf, hd, Package.empty] at h

theorem cacheFuel_nofiles {E : Env} {p : Ptr} (n : Nat) (pool : packagePool)
    (h : cacheKeyOf E p = none) : cacheFuel E (n + 1) pool p = some pool := by
  unfold cacheKeyOf at h
  unfold cacheFuel
  cases hf : (E.deref p).CompiledGoFiles with
  | nil => rfl
  | cons f fs => simp [hf] at h

theorem cacheFuel_present {E : Env} {p : Ptr} {k : String} (n : Nat) (pool : packagePool)
    (h : cacheKeyOf E p = some k) (hk : (pool.get k).isSome) :
    cacheFuel E (n + 1) pool p = some pool := by
  unfold cacheKeyOf at h
  unfold cacheFuel
  cases hf : (E.deref p).CompiledGoFiles with
  | nil => rfl
  | cons f fs =>
    simp [hf] at h
    subst h
    simp [hk]

theorem cacheFuel_absent {E : Env} {p : Ptr} {k : String} (n : Nat) (pool : packagePool)
    (h : cacheKeyOf E p = some k) (hk : pool.get k = none) :
    cacheFuel E (n + 1) pool p =
      (importsOf E p).foldlM (fun pl q => cacheFuel E n pl q) (pool.set k p) := by
  unfold cacheKeyOf at h
  conv_lhs => unfold cacheFuel
  cases hf : (E.deref p).CompiledGoFiles with
  | nil => simp [hf] at h
  | cons f fs =>
    simp [hf] at h
    subst h
    simp [hk, importsOf]

theorem PoolLe_refl (pool : packagePool) : PoolLe pool pool := fun _ _ h => h

theorem PoolLe_trans {a b c : packagePool} (h1 : PoolLe a b) (h2 : PoolLe b c) : PoolLe a c :=
  fun k v h => h2 k v (h1 k v h)

theorem PoolLe_set_absent {pool : packagePool} {k : String} (p : Ptr) (hk : pool.get k = none) :
    PoolLe pool (pool.set k p) := by
  intro k2 v h
  have hne : k2 ≠ k := by
    intro e
    subst e
    rw [hk] at h
    exact Option.noConfusion h
  rw [GoMap.get_set_other pool p hne]
  exact h

theorem PoolLe_isSome {a b : packagePool} (h : PoolLe a b) {k : String}
    (hk : (a.get k).isSome) : (b.get k).isSome := by
  obtain ⟨v, hv⟩ := Option.isSome_iff_exists.mp hk
  rw [h k v hv]
  rfl

theorem PoolLe_none {a b : packagePool} (h : PoolLe a b) {k : String}
    (hk : b.get k = none) : a.get k = none := by
  cases ha : a.get k with
  | none => rfl
  | some v =>
    rw [h k v ha] at hk
    exact Option.noConfusion hk

theorem missingSet_mono {E : Env} {a b : packagePool} (h : PoolLe a b) :
    missingSet E b ⊆ missingSet E a := by
  intro i hi
  simp only [missingSet, Finset.mem_filter] at hi ⊢
  obtain ⟨hr, k, hk, hb⟩ := hi
  exact ⟨hr, k, hk, PoolLe_none h hb⟩

theorem missingSet_card_le (E : Env) (pool : packagePool) :
    (missingSet E pool).card ≤ E.heap.length := by
  have h := Finset.card_filter_le (Finset.range E.heap.length)
    (fun i => ∃ k, cacheKeyOf E i = some k ∧ pool.get k = none)
  simpa [missingSet] using h

theorem missingSet_set_lt {E : Env} {pool : packagePool} {p : Ptr} {k : String}
    (h : cacheKeyOf E p = some k) (hk : pool.get k = none) :
    (missingSet E (pool.set k p)).card < (missingSet E pool).card := by
  apply Finset.card_lt_card
  rw [Finset.ssubset_iff_of_subset (missingSet_mono (PoolLe_set_absent p hk))]
  refine ⟨p, ?_, ?_⟩
  · simp only [missingSet, Finset.mem_filter, Finset.mem_range]
    exact ⟨cacheKeyOf_some_lt h, k, h, hk⟩
  · simp only [missingSet, Finset.mem_filter, Finset.mem_range, not_and, not_exists]
    intro _ k2 hk2
    rw [h] at hk2
    cases hk2
    rw [GoMap.get_set_self]
    exact fun e => Option.noConfusion e

theorem NewClosed_refl (E : Env) (pool : packagePool) : NewClosed E pool pool := by
  intro k q h1 h2
  rw [h2] at h1
  exact Option.noConfusion h1

theorem NewClosed_trans {E : Env} {a b c : packagePool} (hbc : PoolLe b c)
    (h1 : NewClosed E a b) (h2 : NewClosed E b c) : NewClosed E a c := by
  intro k q hc ha
  cases hb : b.get k with
  | none => exact h2 k q hc hb
  | some y =>
    have hy : c.get k = some y := hbc k y hb
    rw [hc] at hy
    cases hy
    obtain ⟨hkey, himp⟩ := h1 k q hb ha
    exact ⟨hkey, fun r hr kr hkr => PoolLe_isSome hbc (himp r hr kr hkr)⟩

theorem CachePost_nil (E : Env) (pool : packagePool) : CachePost E pool [] pool :=
  ⟨PoolLe_refl pool, fun _ h => absurd h (List.not_mem_nil _), NewClosed_refl E pool⟩

theorem CachePost_cons {E : Env} {a b c : packagePool} {q : Ptr} {l : List Ptr}
    (h1 : CachePost E a [q] b) (h2 : CachePost E b l c) : CachePost E a (q :: l) c := by
  refine ⟨PoolLe_trans h1.le h2.le, ?_, NewClosed_trans h2.le h1.closed h2.closed⟩
  intro r hr kr hkr
  rcases List.mem_cons.mp hr with e | hr
  · subst e
    exact PoolLe_isSome h2.le (h1.keys r (List.mem_singleton.mpr rfl) kr hkr)
  · exact h2.keys r hr kr hkr

theorem cacheFuel_foldlM_spec (E : Env) (n : Nat)
    (IH : ∀ pool p, (missingSet E pool).card < n →
      ∃ pool2, cacheFuel E n pool p = some pool2 ∧ CachePost E pool [p] pool2) :
    ∀ (l : List Ptr) (pool : packagePool), (missingSet E pool).card < n →
      ∃ pool2, l.foldlM (fun pl q => cacheFuel E n pl q) pool = some pool2 ∧
        CachePost E pool l pool2 := by
  intro l
  induction l with
  | nil =>
    intro pool _
    exact ⟨pool, rfl, CachePost_nil E pool⟩
  | cons q l ih =>
    intro pool hlt
    obtain ⟨pool1, hrun1, hpost1⟩ := IH pool q hlt
    have hlt1 : (missingSet E pool1).card < n :=
      lt_of_le_of_lt (Finset.card_le_card (missingSet_mono hpost1.le)) hlt
    obtain ⟨pool2, hrun2, hpost2⟩ := ih pool1 hlt1
    refine ⟨pool2, ?_, CachePost_cons hpost1 hpost2⟩
    rw [List.foldlM_cons, hrun1]
    exact hrun2

theorem cacheFuel_spec (E : Env) :
    ∀ (n : Nat) (pool : packagePool) (p : Ptr), (missingSet E pool).card < n →
      ∃ pool2, cacheFuel E n pool p = some pool2 ∧ CachePost E pool [p] pool2 := by
  intro n
  induction n with
  | zero =>
    intro pool p h
    exact absurd h (Nat.not_lt_zero _)
  | succ n ih =>
    intro pool p hlt
    cases hkey : cacheKeyOf E p with
    | none =>
      refine ⟨pool, cacheFuel_nofiles n pool hkey, PoolLe_refl pool, ?_, NewClosed_refl E pool⟩
      intro r hr kr hkr
      rw [List.mem_singleton.mp hr, hkey] at hkr
      exact Option.noConfusion hkr
    | some k =>
      cases hget : pool.get k with
      | some v =>
        have hpres : (pool.get k).isSome := by rw [hget]; rfl
        refine ⟨pool, cacheFuel_present n pool hkey hpres, PoolLe_refl pool, ?_,
          NewClosed_refl E pool⟩
        intro r hr kr hkr
        rw [List.mem_singleton.mp hr, hkey] at hkr
        cases hkr
        exact hpres
      | none =>
        have hlt0 : (missingSet E (pool.set k p)).card < n :=
          lt_of_lt_of_le (missingSet_set_lt hkey hget) (Nat.le_of_lt_succ hlt)
        obtain ⟨pool2, hrun, hpost⟩ :=
          cacheFuel_foldlM_spec E n ih (importsOf E p) (pool.set k p) hlt0
        have hle0 : PoolLe pool (pool.set k p) := PoolLe_set_absent p hget
        have hp2 : pool2.get k = some p := hpost.le k p (GoMap.get_set_self pool k p)
        refine ⟨pool2, ?_, PoolLe_trans hle0 hpost.le, ?_, ?_⟩
        · rw [cacheFuel_absent n pool hkey hget]
          exact hrun
        · intro r hr kr hkr
          rw [List.mem_singleton.mp hr, hkey] at hkr
          cases hkr
          rw [hp2]
          rfl
        · intro k2 q h2 hnone
          by_cases e : k2 = k
          · subst e
            rw [hp2] at h2
            cases h2
            exact ⟨hkey, hpost.keys⟩
          · apply hpost.closed k2 q h2
            rw [GoMap.get_set_other pool p e]
            exact hnone

theorem foldlM_option_mono {α β : Type} (f g : β → α → Option β)
    (h : ∀ b a r, f b a = some r → g b a = some r) :
    ∀ (l : List α) (b r : β), l.foldlM f b = some r → l.foldlM g b = some r := by
  intro l
  induction l with
  | nil => intro b r hr; exact hr
  | cons a l ih =>
    intro b r hr
    rw [List.foldlM_cons] at hr ⊢
    cases hf : f b a with
    | none => rw [hf] at hr; exact Option.noConfusion hr
    | some b1 =>
      rw [hf] at hr
      rw [h b a b1 hf]
      exact ih b1 r hr

theorem cacheFuel_succ (E : Env) :
    ∀ (n : Nat) (pool : packagePool) (p : Ptr) (r : packagePool),
      cacheFuel E n pool p = some r → cacheFuel E (n + 1) pool p = some r := by
  intro n
  induction n with
  | zero =>
    intro pool p r h
    simp [cacheFuel] at h
  | succ n ih =>
    intro pool p r h
    cases hkey : cacheKeyOf E p with
    | none =>
      rw [cacheFuel_nofiles n pool hkey] at h
      rw [cacheFuel_nofiles (n + 1) pool hkey]
      exact h
    | some k =>
      cases hget : pool.get k with
      | some v =>
        have hpres : (pool.get k).isSome := by rw [hget]; rfl
        rw [cacheFuel_present n pool hkey hpres] at h
        rw [cacheFuel_present (n + 1) pool hkey hpres]
        exact h
      | none =>
        rw [cacheFuel_absent n pool hkey hget] at h
        rw [cacheFuel_absent (n + 1) pool hkey hget]
        exact foldlM_option_mono _ _ (fun b a r => ih b a r) _ _ _ h

theorem cacheFuel_le (E : Env) {n m : Nat} (hnm : n ≤ m) (pool : packagePool) (p : Ptr)
    (r : packagePool) (h : cacheFuel E n pool p = some r) : cacheFuel E m pool p = some r := by
  induction hnm with
  | refl => exact h
  | step _ ih => exact cacheFuel_succ E _ pool p r ih

/-- The fuel `cache` runs with never runs out, and any larger fuel gives the same pool. -/
theorem cacheFuel_cache (E : Env) (pool : packagePool) (p : Ptr) (n : Nat)
    (hn : E.heap.length + 1 ≤ n) : cacheFuel E n pool p = some (cache E pool p) := by
  obtain ⟨pool2, hrun, _⟩ := cacheFuel_spec E (E.heap.length + 1) pool p
    (Nat.lt_succ_of_le (missingSet_card_le E pool))
  have hc : cache E pool p = pool2 := by
    unfold cache
    rw [hrun]
    rfl
  rw [hc]
  exact cacheFuel_le E hn pool p pool2 hrun

theorem cache_post (E : Env) (pool : packagePool) (p : Ptr) :
    CachePost E pool [p] (cache E pool p) := by
  obtain ⟨pool2, hrun, hpost⟩ := cacheFuel_spec E (E.heap.length + 1) pool p
    (Nat.lt_succ_of_le (missingSet_card_le E pool))
  have hc : cache E pool p = pool2 := by
    unfold cache
    rw [hrun]
    rfl
  rw [hc]
  exact hpost

theorem push_post (E : Env) : ∀ (l : List Ptr) (pool : packagePool),
    CachePost E pool l (push E pool l) := by
  intro l
  induction l with
  | nil => intro pool; exact CachePost_nil E pool
  | cons q l ih =>
    intro pool
    exact CachePost_cons (cache_post E pool q) (ih (cache E pool q))

theorem cache_present (E : Env) (pool : packagePool) (q : Ptr) (k : String)
    (hq : cacheKeyOf E q = some k) (hin : (pool.get k).isSome) : cache E pool q = pool := by
  unfold cache
  rw [cacheFuel_present _ pool hq hin]
  rfl

theorem buildCache_ok {E : Env} {c c2 : PackageCache}
    (h : buildCache E c = some (none, c2)) :
    ∃ loadDir, getLoadDir E c.rootDir = some loadDir ∧
      (E.packagesLoad c.loads (loadDir ++ "/...")).2 = none ∧
      c2 = { pool := push E [] (E.packagesLoad c.loads (loadDir ++ "/...")).1,
             rootDir := c.rootDir, loads := c.loads + 1 } := by
  unfold buildCache at h
  simp only at h
  cases hd : getLoadDir E c.rootDir with
  | none => simp [hd] at h
  | some loadDir =>
    simp only [hd] at h
    cases he : (E.packagesLoad c.loads (loadDir ++ "/...")).2 with
    | some err => simp [he] at h
    | none =>
      simp only [he] at h
      refine ⟨loadDir, rfl, he, ?_⟩
      simp at h
      exact h.symm

/-! ## Claims on the package cache -/

/-- C1 (as stated, refuted): in `exampleEnv` the rebuild succeeds, `lib/u` (unit 2) has a compiled
file and is reachable from the top-level list through the test variant of `r/a`, yet the pool has
no entry under its key `/lib/u`: the test variant was suppressed as a duplicate of `/r/a`. -/
theorem buildCache_reachable_counterexample :
    buildCache exampleEnv { pool := [], rootDir := "/r", loads := 0 } =
        some (none, { pool := [("/r/a", 0)], rootDir := "/r", loads := 1 }) ∧
      Reachable exampleEnv (exampleEnv.packagesLoad 0 "/r/...").1 2 ∧
      cacheKeyOf exampleEnv 2 = some "/lib/u" ∧
      GoMap.get ([("/r/a", 0)] : packagePool) "/lib/u" = none := by
  refine ⟨by decide, ?_, by decide, by decide⟩
  exact Reachable.step (Reachable.root (p := 1) (by decide)) (by decide)

/-- C1 (amended): after a successful rebuild the pool is the push of the compiler's top-level list
into the empty pool, and it holds an entry under the cache key of every unit with a compiled file
that is reachable from that list through `Imports` edges leaving units stored in the pool. -/
theorem buildCache_caches_reachable_stored (E : Env) (c c2 : PackageCache)
    (h : buildCache E c = some (none, c2)) :
    ∃ loadDir, getLoadDir E c.rootDir = some loadDir ∧
      c2.pool = push E [] (E.packagesLoad c.loads (loadDir ++ "/...")).1 ∧
      ∀ u k, ReachableStored E c2.pool (E.packagesLoad c.loads (loadDir ++ "/...")).1 u →
        cacheKeyOf E u = some k → (c2.pool.get k).isSome := by
  obtain ⟨loadDir, hd, _, hc⟩ := buildCache_ok h
  refine ⟨loadDir, hd, by rw [hc], ?_⟩
  have hpost := push_post E (E.packagesLoad c.loads (loadDir ++ "/...")).1 []
  have hpool : c2.pool = push E [] (E.packagesLoad c.loads (loadDir ++ "/...")).1 := by rw [hc]
  intro u k hreach hk
  rw [hpool] at hreach ⊢
  cases hreach with
  | root hmem => exact hpost.keys u hmem k hk
  | step hp hstored hq =>
    obtain ⟨kp, _, hget⟩ := hstored
    exact (hpost.closed kp _ hget rfl).2 u hq k hk

theorem buildCache_caches_reachable_stored_witness :
    buildCache transitiveEnv { pool := [], rootDir := "/r", loads := 0 } =
        some (none, { pool := [("/lib/c", 2), ("/lib/b", 1), ("/r/a", 0)], rootDir := "/r",
                      loads := 1 }) ∧
      ReachableStored transitiveEnv [("/lib/c", 2), ("/lib/b", 1), ("/r/a", 0)] [0] 2 ∧
      (GoMap.get ([("/lib/c", 2), ("/lib/b", 1), ("/r/a", 0)] : packagePool) "/lib/c").isSome =
        true :=
  have hreach : ReachableStored transitiveEnv [("/lib/c", 2), ("/lib/b", 1), ("/r/a", 0)] [0] 2 :=
    ReachableStored.step (p := 1) (q := 2)
      (ReachableStored.step (p := 0) (q := 1) (ReachableStored.root (List.mem_cons_self 0 []))
        ⟨"/r/a", by decide, by decide⟩ (by decide))
      ⟨"/lib/b", by decide, by decide⟩ (by decide)
  ⟨by decide, hreach,
    (buildCache_caches_reachable_stored transitiveEnv { pool := [], rootDir := "/r", loads := 0 }
      { pool := [("/lib/c", 2), ("/lib/b", 1), ("/r/a", 0)], rootDir := "/r", loads := 1 }
      (by decide)).elim
      (fun _ h => h.2.2 2 "/lib/c" hreach (by decide))⟩

/-- C2: insertion is first-write-wins. When the cache key of `q` is already a key of the pool,
`cache q` returns the pool unchanged (with any positive fuel); in particular, after caching a unit
`p` with that key into a pool lacking it, `p` is stored under the key and caching `q` changes
nothing. -/
theorem cache_first_write_wins (E : Env) (pool : packagePool) (q : Ptr) (k : String)
    (hq : cacheKeyOf E q = some k) (hin : (pool.get k).isSome) :
    cache E pool q = pool ∧
      (∀ fuel, cacheFuel E (fuel + 1) pool q = some pool) ∧
      (∀ (pool0 : packagePool) (p : Ptr), cacheKeyOf E p = some k → pool0.get k = none →
        (cache E pool0 p).get k = some p ∧
          cache E (cache E pool0 p) q = cache E pool0 p ∧
          (cache E (cache E pool0 p) q).get k = some p) := by
  refine ⟨cache_present E pool q k hq hin, fun fuel => cacheFuel_present fuel pool hq hin, ?_⟩
  intro pool0 p hp hnone
  have hpost := cache_post E pool0 p
  have hsome := hpost.keys p (List.mem_singleton.mpr rfl) k hp
  obtain ⟨v, hv⟩ := Option.isSome_iff_exists.mp hsome
  have hkey := (hpost.closed k v hv hnone).1
  have hstored : (cache E pool0 p).get k = some p := by
    have hfuel := cacheFuel_cache E pool0 p (E.heap.length + 1) (Nat.le_refl _)
    rw [cacheFuel_absent _ pool0 hp hnone] at hfuel
    obtain ⟨pool2, hrun, hpost2⟩ := cacheFuel_foldlM_spec E E.heap.length
      (cacheFuel_spec E E.heap.length) (importsOf E p) (pool0.set k p)
      (lt_of_lt_of_le (missingSet_set_lt hp hnone) (missingSet_card_le E pool0))
    rw [hrun] at hfuel
    cases hfuel
    exact hpost2.le k p (GoMap.get_set_self pool0 k p)
  have hsame := cache_present E (cache E pool0 p) q k hq (by rw [hstored]; rfl)
  exact ⟨hstored, hsame, by rw [hsame]; exact hstored⟩

theorem cache_first_write_wins_witness :
    cache exampleEnv [("/r/a", 0)] 1 = [("/r/a", 0)] ∧
      (∀ fuel, cacheFuel exampleEnv (fuel + 1) [("/r/a", 0)] 1 = some [("/r/a", 0)]) ∧
      (∀ (pool0 : packagePool) (p : Ptr), cacheKeyOf exampleEnv p = some "/r/a" →
        pool0.get "/r/a" = none →
        (cache exampleEnv pool0 p).get "/r/a" = some p ∧
          cache exampleEnv (cache exampleEnv pool0 p) 1 = cache exampleEnv pool0 p ∧
          (cache exampleEnv (cache exampleEnv pool0 p) 1).get "/r/a" = some p) :=
  cache_first_write_wins exampleEnv [("/r/a", 0)] 1 "/r/a" (by decide) (by decide)

/-- C3 (as stated, refuted): after a successful `Init` on root `/r`, two consecutive calls
`Load("/r/missing")` both miss, and the second one rebuilds again: the compiler is invoked a
third time (the ghost counter goes from 2 to 3). -/
theorem Load_twice_counterexample :
    Init exampleEnv New "/r" =
        some (none, { pool := [("/r/a", 0)], rootDir := "/r", loads := 1 }) ∧
      Load exampleEnv { pool := [("/r/a", 0)], rootDir := "/r", loads := 1 } "/r/missing" =
        some ((none, none), { pool := [("/r/a", 0)], rootDir := "/r", loads := 2 }) ∧
      Load exampleEnv { pool := [("/r/a", 0)], rootDir := "/r", loads := 2 } "/r/missing" =
        some ((none, none), { pool := [("/r/a", 0)], rootDir := "/r", loads := 3 }) := by
  decide

/-- C3 (amended): when a call `Load(d)` returns a unit, the next call `Load(d)` returns the same
unit with a nil error and leaves the cache as it was: the pool is unchanged and the compiler is
not invoked. -/
theorem Load_idempotent_on_found (E : Env) (c c1 : PackageCache) (d : String) (u : Ptr)
    (e : Option GoError) (h : Load E c d = some ((some u, e), c1)) :
    Load E c1 d = some ((some u, none), c1) := by
  unfold Load at h ⊢
  cases hd : getLoadDir E d with
  | none => simp [hd] at h
  | some loadDir =>
    simp only [hd] at h ⊢
    have key : c1.pool.get (loadCacheKey E loadDir) = some u := by
      cases hget : c.pool.get (loadCacheKey E loadDir) with
      | some v =>
        simp only [hget] at h
        simp at h
        obtain ⟨⟨hv, _⟩, hc⟩ := h
        rw [← hc, hget, hv]
      | none =>
        simp only [hget] at h
        cases hb : buildCache E c with
        | none => simp [hb] at h
        | some r =>
          obtain ⟨e2, c3⟩ := r
          simp only [hb] at h
          simp at h
          obtain ⟨⟨hv, _⟩, hc⟩ := h
          rw [← hc]
          exact hv
    simp only [key]

theorem Load_idempotent_on_found_witness :
    Load exampleEnv { pool := [("/r/a", 0)], rootDir := "/r", loads := 1 } "/r/a" =
      some ((some 0, none), { pool := [("/r/a", 0)], rootDir := "/r", loads := 1 }) :=
  Load_idempotent_on_found exampleEnv { pool := [], rootDir := "/r", loads := 0 }
    { pool := [("/r/a", 0)], rootDir := "/r", loads := 1 }
    "/r/a" 0 none (by decide)

/-- C4 (the code at the failing input): with a compiler that fails, `Init` returns the compiler's
error, while a `Load` whose miss triggered the same failing rebuild returns a nil unit and a nil
error: the error of `buildCache` is dropped. -/
theorem Load_drops_rebuild_error :
    Init failingEnv New "/r" =
        some (some "exit status 1", { pool := [], rootDir := "/r", loads := 1 }) ∧
      Load failingEnv { pool := [], rootDir := "/r", loads := 1 } "/r/a" =
        some ((none, none), { pool := [], rootDir := "/r", loads := 2 }) := by
  decide

/-- C6: when the cache key of `d` is absent from the pool and is still absent from the pool the
rebuild leaves, `Load(d)` returns a nil unit and a nil error, and the compiler has been invoked
exactly once. -/
theorem Load_miss_after_rebuild (E : Env) (c c2 : PackageCache) (d loadDir : String)
    (e : Option GoError) (hd : getLoadDir E d = some loadDir)
    (hmiss : c.pool.get (loadCacheKey E loadDir) = none)
    (hb : buildCache E c = some (e, c2))
    (hstill : c2.pool.get (loadCacheKey E loadDir) = none) :
    Load E c d = some ((none, none), c2) ∧ c2.loads = c.loads + 1 := by
  constructor
  · unfold Load
    simp only [hd, hmiss, hb, hstill]
  · unfold buildCache at hb
    simp only at hb
    cases hr : getLoadDir E c.rootDir with
    | none => simp [hr] at hb
    | some rootLoad =>
      simp only [hr] at hb
      cases he : (E.packagesLoad c.loads (rootLoad ++ "/...")).2 with
      | some err =>
        simp only [he] at hb
        simp at hb
        rw [← hb.2]
      | none =>
        simp only [he] at hb
        simp at hb
        rw [← hb.2]

theorem Load_miss_after_rebuild_witness :
    Load exampleEnv { pool := [("/r/a", 0)], rootDir := "/r", loads := 1 } "/r/missing" =
        some ((none, none), { pool := [("/r/a", 0)], rootDir := "/r", loads := 2 }) ∧
      (2 : Nat) = 1 + 1 :=
  Load_miss_after_rebuild exampleEnv { pool := [("/r/a", 0)], rootDir := "/r", loads := 1 }
    { pool := [("/r/a", 0)], rootDir := "/r", loads := 2 } "/r/missing" "/r/missing" none
    (by decide) (by decide) (by decide) (by decide)

/-- C7: a failed rebuild leaves the cache empty. Whatever the pool held before, when the compiler
returns an error `buildCache` returns that error and the pool afterwards has no entries. -/
theorem buildCache_error_leaves_empty (E : Env) (c : PackageCache) (loadDir : String)
    (err : GoError) (hd : getLoadDir E c.rootDir = some loadDir)
    (herr : (E.packagesLoad c.loads (loadDir ++ "/...")).2 = some err) :
    buildCache E c = some (some err, { pool := [], rootDir := c.rootDir, loads := c.loads + 1 }) := by
  unfold buildCache
  simp only [hd, herr]

theorem buildCache_error_leaves_empty_witness :
    buildCache failingEnv { pool := [("/r/a", 0)], rootDir := "/r", loads := 1 } =
      some (some "exit status 1", { pool := [], rootDir := "/r", loads := 1 + 1 }) :=
  buildCache_error_leaves_empty failingEnv { pool := [("/r/a", 0)], rootDir := "/r", loads := 1 }
    "/r" "exit status 1" (by decide) (by decide)

/-! ## Cache-key normalisation -/

theorem stringsSplit_ne_nil (s : List Char) (sep : Char) : stringsSplit s sep ≠ [] := by
  cases s with
  | nil => simp [stringsSplit]
  | cons c cs =>
    unfold stringsSplit
    split
    · simp
    · split <;> simp

theorem stringsSplit_append (sep : Char) (r : List Char) :
    ∀ a : List Char, sep ∉ a → stringsSplit (a ++ sep :: r) sep = a :: stringsSplit r sep := by
  intro a
  induction a with
  | nil =>
    intro _
    simp [stringsSplit]
  | cons c cs ih =>
    intro h
    have hc : ¬ c = sep := fun e => h (e ▸ List.mem_cons_self _ _)
    have hcs : sep ∉ cs := fun hm => h (List.mem_cons_of_mem _ hm)
    simp only [List.cons_append]
    conv_lhs => unfold stringsSplit
    rw [if_neg hc, ih hcs]

theorem stringsSplit_of_not_mem (sep : Char) :
    ∀ s : List Char, sep ∉ s → stringsSplit s sep = [s] := by
  intro s
  induction s with
  | nil => intro _; rfl
  | cons c cs ih =>
    intro h
    have hc : ¬ c = sep := fun e => h (e ▸ List.mem_cons_self _ _)
    have hcs : sep ∉ cs := fun hm => h (List.mem_cons_of_mem _ hm)
    conv_lhs => unfold stringsSplit
    rw [if_neg hc, ih hcs]

theorem stringsJoin_cons (sep : Char) (x : List Char) {xs : List (List Char)} (h : xs ≠ []) :
    stringsJoin (x :: xs) sep = x ++ sep :: stringsJoin xs sep := by
  cases xs with
  | nil => exact absurd rfl h
  | cons y rest => rfl

theorem stringsJoin_split (sep : Char) :
    ∀ s : List Char, stringsJoin (stringsSplit s sep) sep = s := by
  intro s
  induction s with
  | nil => rfl
  | cons c cs ih =>
    unfold stringsSplit
    by_cases hc : c = sep
    · rw [if_pos hc, stringsJoin_cons sep [] (stringsSplit_ne_nil cs sep), ih, hc]
      rfl
    · rw [if_neg hc]
      cases hs : stringsSplit cs sep with
      | nil => exact absurd hs (stringsSplit_ne_nil cs sep)
      | cons hd tl =>
        rw [hs] at ih
        cases tl with
        | nil =>
          simp only [stringsJoin] at ih ⊢
          rw [ih]
        | cons y rest =>
          simp only [stringsJoin] at ih ⊢
          rw [← ih]
          rfl

/-- The key of a Windows directory with a colon: the part before the first colon lowered, then separators replaced. -/
theorem getCacheKeyFromDir_windows_colon (E : Env) (hw : E.GOOS = windowsOS) (a r : List Char)
    (ha : ':' ∉ a) :
    getCacheKeyFromDir E (String.mk (a ++ ':' :: r)) =
      String.mk (stringsReplace (stringsToLower E.lowerTable a ++ ':' :: r) '\\' '/') := by
  unfold getCacheKeyFromDir
  rw [if_neg (not_not.mpr hw)]
  simp only [stringsSplit_append ':' r a ha, List.length_cons, List.headD_cons, List.set_cons_zero]
  have hlen : 2 ≤ (stringsSplit r ':').length + 1 := by
    have := List.length_pos.mpr (stringsSplit_ne_nil r ':')
    omega
  rw [if_pos hlen, stringsJoin_cons ':' _ (stringsSplit_ne_nil r ':'), stringsJoin_split]

/-- The key of a Windows directory without a colon: separators replaced. -/
theorem getCacheKeyFromDir_windows_plain (E : Env) (hw : E.GOOS = windowsOS) (s : List Char)
    (hs : ':' ∉ s) :
    getCacheKeyFromDir E (String.mk s) = String.mk (stringsReplace s '\\' '/') := by
  unfold getCacheKeyFromDir
  rw [if_neg (not_not.mpr hw)]
  simp only [stringsSplit_of_not_mem ':' s hs, List.length_singleton]
  rw [if_neg (by decide)]

theorem map_eq_of_forall₂ {α β : Type} (R : α → α → Prop) (f : α → β)
    (h : ∀ c d, R c d → f c = f d) :
    ∀ a b : List α, List.Forall₂ R a b → a.map f = b.map f := by
  intro a b hab
  induction hab with
  | nil => rfl
  | cons hcd _ ih => simp [h _ _ hcd, ih]

theorem replace_sepVariant (c d : Char) (h : sepVariant c d) :
    (if c = '\\' then '/' else c) = (if d = '\\' then '/' else d) := by
  rcases h with h | ⟨h1, h2⟩ | ⟨h1, h2⟩
  · rw [h]
  · subst h1; subst h2; decide
  · subst h1; subst h2; decide

theorem lower_sepVariant (tbl : Char → Char) (c d : Char) (h : sepVariant c d) :
    sepVariant (unicodeToLower tbl c) (unicodeToLower tbl d) := by
  rcases h with h | ⟨h1, h2⟩ | ⟨h1, h2⟩
  · exact Or.inl (by rw [h])
  · subst h1; subst h2
    exact Or.inr (Or.inl ⟨rfl, rfl⟩)
  · subst h1; subst h2
    exact Or.inr (Or.inr ⟨rfl, rfl⟩)

/-- C5: cache-key normalisation. On Windows two directories whose parts before the first colon
differ only in case or separator style and whose remainders differ only in separator style get the
same key, and so do two colon-free directories that differ only in separator style; on every other
platform `getCacheKeyFromDir` is the identity. -/
theorem getCacheKeyFromDir_normalises (E : Env) :
    (E.GOOS = windowsOS →
      (∀ a b r r2 : List Char, ':' ∉ a → ':' ∉ b →
        List.Forall₂ (fun c d => caseVariant E.lowerTable c d ∨ sepVariant c d) a b →
        List.Forall₂ sepVariant r r2 →
        getCacheKeyFromDir E (String.mk (a ++ ':' :: r)) =
          getCacheKeyFromDir E (String.mk (b ++ ':' :: r2))) ∧
      (∀ s t : List Char, ':' ∉ s → ':' ∉ t → List.Forall₂ sepVariant s t →
        getCacheKeyFromDir E (String.mk s) = getCacheKeyFromDir E (String.mk t))) ∧
    (E.GOOS ≠ windowsOS → ∀ dir : String, getCacheKeyFromDir E dir = dir) := by
  refine ⟨fun hw => ⟨?_, ?_⟩, ?_⟩
  · intro a b r r2 ha hb hab hr
    rw [getCacheKeyFromDir_windows_colon E hw a r ha, getCacheKeyFromDir_windows_colon E hw b r2 hb]
    congr 1
    simp only [stringsReplace, stringsToLower, List.map_append, List.map_cons, List.map_map]
    have h1 := map_eq_of_forall₂ _
      ((fun c => if c = '\\' then '/' else c) ∘ unicodeToLower E.lowerTable) (fun c d hcd => by
        rcases hcd with hc | hs
        · simp only [Function.comp]
          rw [show unicodeToLower E.lowerTable c = unicodeToLower E.lowerTable d from hc]
        · exact replace_sepVariant _ _ (lower_sepVariant E.lowerTable c d hs)) a b hab
    have h2 := map_eq_of_forall₂ sepVariant (fun c => if c = '\\' then '/' else c)
      replace_sepVariant r r2 hr
    rw [h1, h2]
  · intro s t hs ht hst
    rw [getCacheKeyFromDir_windows_plain E hw s hs, getCacheKeyFromDir_windows_plain E hw t ht]
    congr 1
    exact map_eq_of_forall₂ sepVariant (fun c => if c = '\\' then '/' else c)
      replace_sepVariant s t hst
  · intro hne dir
    unfold getCacheKeyFromDir
    rw [if_pos hne]

theorem getCacheKeyFromDir_normalises_witness :
    getCacheKeyFromDir windowsEnv (String.mk (['C'] ++ ':' :: ['\\', 'g', 'o'])) =
        getCacheKeyFromDir windowsEnv (String.mk (['c'] ++ ':' :: ['/', 'g', 'o'])) ∧
      getCacheKeyFromDir windowsEnv (String.mk ['a', '\\', 'b']) =
        getCacheKeyFromDir windowsEnv (String.mk ['a', '/', 'b']) ∧
      getCacheKeyFromDir exampleEnv "C:\\go" = "C:\\go" :=
  ⟨((getCacheKeyFromDir_normalises windowsEnv).1 (by decide)).1 ['C'] ['c'] ['\\', 'g', 'o']
      ['/', 'g', 'o'] (by decide) (by decide)
      (List.Forall₂.cons (Or.inl (by unfold caseVariant; decide)) List.Forall₂.nil)
      (List.Forall₂.cons (Or.inr (Or.inl ⟨rfl, rfl⟩))
        (List.Forall₂.cons (Or.inl rfl) (List.Forall₂.cons (Or.inl rfl) List.Forall₂.nil))),
    ((getCacheKeyFromDir_normalises windowsEnv).1 (by decide)).2 ['a', '\\', 'b'] ['a', '/', 'b']
      (by decide) (by decide)
      (List.Forall₂.cons (Or.inl rfl)
        (List.Forall₂.cons (Or.inr (Or.inl ⟨rfl, rfl⟩))
          (List.Forall₂.cons (Or.inl rfl) List.Forall₂.nil))),
    (getCacheKeyFromDir_normalises exampleEnv).2 (by decide) "C:\\go"⟩

/-! ## Claims on the file view -/

theorem getFile_of_absent (v : View) (u : URI) (h : v.files.get u = none) :
    v.getFile u =
      (v.fileHeap.length,
        { v with
          fileHeap := v.fileHeap ++
            [{ URI := u, content := none, ast := none, token := none, pkg := none }],
          files := v.files.set u v.fileHeap.length }) := by
  unfold View.getFile
  rw [h]

theorem getFile_of_present (v : View) (u : URI) (f : FilePtr) (h : v.files.get u = some f) :
    v.getFile u = (f, v) := by
  unfold View.getFile
  rw [h]

/-- C8: for a URI `u` not yet in the file map, `GetFile(u)` returns a File with URI `u` and nil
content, syntax tree and owning unit, registered under `u`; every other entry of the map, every
File that existed, and the overlay are untouched; and a second `GetFile(u)` returns the very same
File and leaves the view unchanged. -/
theorem GetFile_fresh (v : View) (u : URI) (hnew : v.files.get u = none) :
    (v.GetFile u).2.file (v.GetFile u).1 =
        some { URI := u, content := none, ast := none, token := none, pkg := none } ∧
      (v.GetFile u).2.files.get u = some (v.GetFile u).1 ∧
      (∀ u2, u2 ≠ u → (v.GetFile u).2.files.get u2 = v.files.get u2) ∧
      (∀ f2 file, v.file f2 = some file → (v.GetFile u).2.file f2 = some file) ∧
      (v.GetFile u).2.tempOverlay = v.tempOverlay ∧
      (v.GetFile u).2.GetFile u = ((v.GetFile u).1, (v.GetFile u).2) := by
  unfold View.GetFile
  rw [getFile_of_absent v u hnew]
  have hreg : GoMap.get (GoMap.set v.files u v.fileHeap.length) u = some v.fileHeap.length :=
    GoMap.get_set_self v.files u v.fileHeap.length
  refine ⟨?_, hreg, ?_, ?_, rfl, ?_⟩
  · simp [View.file]
  · intro u2 hne
    exact GoMap.get_set_other v.files v.fileHeap.length hne
  · intro f2 file hf
    simp only [View.file] at hf ⊢
    have hlt : f2 < v.fileHeap.length := by
      by_contra hge
      rw [List.getElem?_eq_none (Nat.le_of_not_lt hge)] at hf
      exact Option.noConfusion hf
    rw [List.getElem?_append_left hlt]
    exact hf
  · exact getFile_of_present _ u v.fileHeap.length hreg

theorem GetFile_fresh_witness :
    (NewView.GetFile "file:///r/a/a.go").2.file (NewView.GetFile "file:///r/a/a.go").1 =
        some { URI := "file:///r/a/a.go", content := none, ast := none, token := none,
               pkg := none } ∧
      (NewView.GetFile "file:///r/a/a.go").2.files.get "file:///r/a/a.go" =
        some (NewView.GetFile "file:///r/a/a.go").1 ∧
      (∀ u2, u2 ≠ "file:///r/a/a.go" →
        (NewView.GetFile "file:///r/a/a.go").2.files.get u2 = NewView.files.get u2) ∧
      (∀ f2 file, NewView.file f2 = some file →
        (NewView.GetFile "file:///r/a/a.go").2.file f2 = some file) ∧
      (NewView.GetFile "file:///r/a/a.go").2.tempOverlay = NewView.tempOverlay ∧
      (NewView.GetFile "file:///r/a/a.go").2.GetFile "file:///r/a/a.go" =
        ((NewView.GetFile "file:///r/a/a.go").1, (NewView.GetFile "file:///r/a/a.go").2) :=
  GetFile_fresh NewView "file:///r/a/a.go" (by decide)

theorem file_some_lt {v : View} {f : FilePtr} {x : File} (h : v.file f = some x) :
    f < v.fileHeap.length := by
  unfold View.file at h
  by_contra hge
  rw [List.getElem?_eq_none (Nat.le_of_not_lt hge)] at h
  exact Option.noConfusion h

theorem NewView_WF : NewView.WF := by
  constructor
  · intro u f h
    simp [NewView, GoMap.get] at h
  · intro u1 u2 f h
    simp [NewView, GoMap.get] at h

theorem getFile_WF (v : View) (hwf : v.WF) (u : URI) : (v.getFile u).2.WF := by
  cases hget : v.files.get u with
  | some f =>
    rw [getFile_of_present v u f hget]
    exact hwf
  | none =>
    rw [getFile_of_absent v u hget]
    constructor
    · intro u2 f hf
      dsimp only at hf ⊢
      rw [List.length_append, List.length_singleton]
      by_cases e : u2 = u
      · subst e
        rw [GoMap.get_set_self] at hf
        cases hf
        exact Nat.lt_succ_self _
      · rw [GoMap.get_set_other _ _ e] at hf
        exact Nat.lt_succ_of_lt (hwf.1 u2 f hf)
    · intro u1 u2 f h1 h2
      dsimp only at h1 h2
      by_cases e1 : u1 = u
      · by_cases e2 : u2 = u
        · rw [e1, e2]
        · rw [e1, GoMap.get_set_self] at h1
          rw [GoMap.get_set_other _ _ e2] at h2
          cases h1
          exact absurd (hwf.1 u2 _ h2) (Nat.lt_irrefl _)
      · by_cases e2 : u2 = u
        · rw [e2, GoMap.get_set_self] at h2
          rw [GoMap.get_set_other _ _ e1] at h1
          cases h2
          exact absurd (hwf.1 u1 _ h1) (Nat.lt_irrefl _)
        · rw [GoMap.get_set_other _ _ e1] at h1
          rw [GoMap.get_set_other _ _ e2] at h2
          exact hwf.2 u1 u2 f h1 h2

theorem getFile_registers (v : View) (u : URI) :
    (v.getFile u).2.files.get u = some (v.getFile u).1 := by
  cases hget : v.files.get u with
  | some f =>
    rw [getFile_of_present v u f hget]
    exact hget
  | none =>
    rw [getFile_of_absent v u hget]
    exact GoMap.get_set_self _ _ _

theorem getFile_other (v : View) (u : URI) {u2 : URI} (hne : u2 ≠ u) :
    (v.getFile u).2.files.get u2 = v.files.get u2 := by
  cases hget : v.files.get u with
  | some f => rw [getFile_of_present v u f hget]
  | none =>
    rw [getFile_of_absent v u hget]
    exact GoMap.get_set_other _ _ hne

theorem getFile_files_mono (v : View) (u : URI) {u2 : URI} {f2 : FilePtr}
    (h : v.files.get u2 = some f2) : (v.getFile u).2.files.get u2 = some f2 := by
  by_cases e : u2 = u
  · subst e
    rw [getFile_of_present v u2 f2 h]
    exact h
  · rw [getFile_other v u e]
    exact h

theorem getFile_file_mono (v : View) (u : URI) {f2 : FilePtr} {x : File}
    (h : v.file f2 = some x) : (v.getFile u).2.file f2 = some x := by
  cases hget : v.files.get u with
  | some f =>
    rw [getFile_of_present v u f hget]
    exact h
  | none =>
    rw [getFile_of_absent v u hget]
    have hlt := file_some_lt h
    unfold View.file at h ⊢
    dsimp only
    rw [List.getElem?_append_left hlt]
    exact h

theorem getFile_overlay (v : View) (u : URI) : (v.getFile u).2.tempOverlay = v.tempOverlay := by
  cases hget : v.files.get u with
  | some f => rw [getFile_of_present v u f hget]
  | none => rw [getFile_of_absent v u hget]

/-- The File `getFile` returns: the one registered before, or a fresh one without content. -/
theorem getFile_file (v : View) (hwf : v.WF) (u : URI) :
    ∃ file0, (v.getFile u).2.file (v.getFile u).1 = some file0 ∧
      ((∃ f, v.files.get u = some f ∧ v.file f = some file0) ∨
        (v.files.get u = none ∧ file0.content = none)) := by
  cases hget : v.files.get u with
  | some f =>
    rw [getFile_of_present v u f hget]
    have hlt := hwf.1 u f hget
    refine ⟨v.fileHeap[f], ?_, Or.inl ⟨f, rfl, ?_⟩⟩
    · unfold View.file
      exact List.getElem?_eq_getElem hlt
    · unfold View.file
      exact List.getElem?_eq_getElem hlt
  | none =>
    rw [getFile_of_absent v u hget]
    refine ⟨{ URI := u, content := none, ast := none, token := none, pkg := none }, ?_,
      Or.inr ⟨rfl, rfl⟩⟩
    unfold View.file
    dsimp only
    exact List.getElem?_concat_length _ _

theorem populate_skip (E : ViewEnv) (v : View) (pkg : Ptr) (fAST : Option AstFile)
    (h : populatedName E (pkg, fAST) = none) : v.populate E pkg fAST = v := by
  unfold populatedName at h
  unfold View.populate
  cases fAST with
  | none => rfl
  | some ast =>
    dsimp only at h ⊢
    cases htok : E.fsetFile ast with
    | none => rfl
    | some tok => simp [htok] at h

theorem populatedName_some {E : ViewEnv} {pkg : Ptr} {fAST : Option AstFile} {n : String}
    (h : populatedName E (pkg, fAST) = some n) :
    ∃ ast tok, fAST = some ast ∧ E.fsetFile ast = some tok ∧ tok.Name = n := by
  unfold populatedName at h
  cases fAST with
  | none => simp at h
  | some ast =>
    dsimp only at h
    cases htok : E.fsetFile ast with
    | none => simp [htok] at h
    | some tok =>
      simp [htok] at h
      exact ⟨ast, tok, rfl, htok, h⟩

/-- The view after the loop body ran for a tree with a token file. -/
theorem populate_some (E : ViewEnv) (v : View) (pkg : Ptr) (ast : AstFile) (tok : TokenFile)
    (file0 : File) (htok : E.fsetFile ast = some tok)
    (hfile : (v.getFile (E.toURI tok.Name)).2.file (v.getFile (E.toURI tok.Name)).1 = some file0) :
    v.populate E pkg (some ast) =
      { ConfigDir := (v.getFile (E.toURI tok.Name)).2.ConfigDir,
        files := (v.getFile (E.toURI tok.Name)).2.files,
        fileHeap := (v.getFile (E.toURI tok.Name)).2.fileHeap.set
          (v.getFile (E.toURI tok.Name)).1 (populatedFile v.tempOverlay file0 pkg ast tok),
        tempOverlay := if file0.content.isNone then v.tempOverlay.delete tok.Name
          else v.tempOverlay } := by
  unfold View.populate
  simp only [htok, hfile, getFile_overlay]
  by_cases hc : file0.content.isNone
  · simp [hc, View.setFile, File.setContent, getFile_overlay, populatedFile]
  · simp [hc, View.setFile, getFile_overlay, populatedFile]

theorem HasParsed_iff (v : View) (u : URI) :
    v.HasParsed u = true ↔
      ∃ f x, v.files.get u = some f ∧ v.file f = some x ∧ x.pkg.isSome = true := by
  unfold View.HasParsed
  cases hget : v.files.get u with
  | none => simp
  | some f =>
    cases hfile : v.file f with
    | none => simp [hfile]
    | some x => simp [hfile]

theorem populate_WF (E : ViewEnv) (v : View) (hwf : v.WF) (pkg : Ptr) (fAST : Option AstFile) :
    (v.populate E pkg fAST).WF := by
  cases hn : populatedName E (pkg, fAST) with
  | none =>
    rw [populate_skip E v pkg fAST hn]
    exact hwf
  | some n =>
    obtain ⟨ast, tok, rfl, htok, _⟩ := populatedName_some hn
    obtain ⟨file0, hfile, _⟩ := getFile_file v hwf (E.toURI tok.Name)
    rw [populate_some E v pkg ast tok file0 htok hfile]
    have h1 := getFile_WF v hwf (E.toURI tok.Name)
    constructor
    · intro u f hf
      dsimp only at hf ⊢
      rw [List.length_set]
      exact h1.1 u f hf
    · intro u1 u2 f hf1 hf2
      exact h1.2 u1 u2 f hf1 hf2

theorem populate_HasParsed_mono (E : ViewEnv) (v : View) (hwf : v.WF) (pkg : Ptr)
    (fAST : Option AstFile) (u : URI) (h : v.HasParsed u = true) :
    (v.populate E pkg fAST).HasParsed u = true := by
  cases hn : populatedName E (pkg, fAST) with
  | none =>
    rw [populate_skip E v pkg fAST hn]
    exact h
  | some n =>
    obtain ⟨ast, tok, rfl, htok, _⟩ := populatedName_some hn
    obtain ⟨file0, hfile, _⟩ := getFile_file v hwf (E.toURI tok.Name)
    rw [populate_some E v pkg ast tok file0 htok hfile]
    obtain ⟨f, x, hf, hx, hpkg⟩ := (HasParsed_iff v u).mp h
    have hf1 := getFile_files_mono v (E.toURI tok.Name) hf
    have hx1 := getFile_file_mono v (E.toURI tok.Name) hx
    rw [HasParsed_iff]
    by_cases e : (v.getFile (E.toURI tok.Name)).1 = f
    · refine ⟨f, populatedFile v.tempOverlay file0 pkg ast tok, hf1, ?_, ?_⟩
      · unfold View.file
        dsimp only
        rw [e]
        exact List.getElem?_set_self (file_some_lt hx1)
      · rfl
    · refine ⟨f, x, hf1, ?_, hpkg⟩
      unfold View.file at hx1 ⊢
      dsimp only
      rw [List.getElem?_set_ne e]
      exact hx1

theorem populate_HasParsed_self (E : ViewEnv) (v : View) (hwf : v.WF) (pkg : Ptr)
    (fAST : Option AstFile) (n : String) (hn : populatedName E (pkg, fAST) = some n) :
    (v.populate E pkg fAST).HasParsed (E.toURI n) = true := by
  obtain ⟨ast, tok, rfl, htok, rfl⟩ := populatedName_some hn
  obtain ⟨file0, hfile, _⟩ := getFile_file v hwf (E.toURI tok.Name)
  rw [populate_some E v pkg ast tok file0 htok hfile, HasParsed_iff]
  refine ⟨(v.getFile (E.toURI tok.Name)).1, populatedFile v.tempOverlay file0 pkg ast tok,
    getFile_registers v _, ?_, ?_⟩
  · unfold View.file
    dsimp only
    exact List.getElem?_set_self (file_some_lt hfile)
  · rfl

/-! ### The loops of `parse` -/

theorem populateAll_eq_foldl_treesOf (E : ViewEnv) :
    ∀ (pkgs : List Ptr) (v : View),
      v.populateAll E pkgs = (treesOf E pkgs).foldl (fun w x => w.populate E x.1 x.2) v := by
  intro pkgs
  induction pkgs with
  | nil => intro v; rfl
  | cons pkg pkgs ih =>
    intro v
    unfold View.populateAll at ih ⊢
    rw [show treesOf E (pkg :: pkgs) =
      List.map (fun fAST => (pkg, fAST)) (E.deref pkg).Syntax ++ treesOf E pkgs from rfl,
      List.foldl_append, List.foldl_map, List.foldl_cons, ih]

theorem foldl_invariant {σ α : Type} (step : σ → α → σ) (I : σ → Prop) :
    ∀ (l : List α), (∀ s, ∀ x ∈ l, I s → I (step s x)) → ∀ s, I s → I (l.foldl step s) := by
  intro l
  induction l with
  | nil => intro _ s hs; exact hs
  | cons y l ih =>
    intro hI s hs
    rw [List.foldl_cons]
    exact ih (fun s x hx => hI s x (List.mem_cons_of_mem _ hx)) _
      (hI s y (List.mem_cons_self _ _) hs)

theorem foldl_establish {σ α : Type} (step : σ → α → σ) (I P : σ → Prop) (x0 : α) :
    ∀ (l : List α), (∀ s, ∀ x ∈ l, I s → I (step s x)) →
      (∀ s, ∀ x ∈ l, I s → P s → P (step s x)) → (∀ s, I s → P (step s x0)) →
      ∀ s, I s → (P s ∨ x0 ∈ l) → P (l.foldl step s) := by
  intro l
  induction l with
  | nil =>
    intro _ _ _ s _ h
    rcases h with h | h
    · exact h
    · exact absurd h (List.not_mem_nil _)
  | cons y l ih =>
    intro hI hP h0 s hs h
    rw [List.foldl_cons]
    apply ih (fun s x hx => hI s x (List.mem_cons_of_mem _ hx))
      (fun s x hx => hP s x (List.mem_cons_of_mem _ hx)) h0 _
      (hI s y (List.mem_cons_self _ _) hs)
    rcases h with h | h
    · exact Or.inl (hP s y (List.mem_cons_self _ _) hs h)
    · rcases List.mem_cons.mp h with e | hmem
      · subst e
        exact Or.inl (h0 s hs)
      · exact Or.inr hmem

theorem parseFile_files (v : View) (n : String) (src : Option Bytes) :
    (v.parseFile n src).files = v.files ∧ (v.parseFile n src).fileHeap = v.fileHeap := by
  cases src <;> exact ⟨rfl, rfl⟩

theorem runHooks_files (calls : List (String × Option Bytes)) :
    ∀ v : View, (v.runHooks calls).files = v.files ∧ (v.runHooks calls).fileHeap = v.fileHeap := by
  induction calls with
  | nil => intro v; exact ⟨rfl, rfl⟩
  | cons c cs ih =>
    intro v
    unfold View.runHooks at ih ⊢
    rw [List.foldl_cons]
    obtain ⟨h1, h2⟩ := ih (v.parseFile c.1 c.2)
    obtain ⟨h3, h4⟩ := parseFile_files v c.1 c.2
    exact ⟨h1.trans h3, h2.trans h4⟩

theorem WF_of_files_eq {v w : View} (hf : w.files = v.files) (hh : w.fileHeap = v.fileHeap)
    (hwf : v.WF) : w.WF := by
  unfold View.WF at hwf ⊢
  rw [hf, hh]
  exact hwf

/-- A `parse` that returns no error ran the hooks and then both loops over a non-empty result. -/
theorem parse_ok (E : ViewEnv) (v v2 : View) (uri : URI) (path : String)
    (hpath : E.uriFilename uri = Except.ok path) (hparse : v.parse E uri = (none, v2)) :
    v2 = (({ v with ConfigDir := E.getLoadDir path } : View).runHooks
      (E.packagesLoad (E.getLoadDir path) ("file=" ++ path)).parsed).populateAll E
        (E.packagesLoad (E.getLoadDir path) ("file=" ++ path)).pkgs := by
  unfold View.parse at hparse
  simp only [hpath] at hparse
  by_cases hlen : (E.packagesLoad (E.getLoadDir path) ("file=" ++ path)).pkgs.length = 0
  · rw [if_pos hlen] at hparse
    simp at hparse
  · rw [if_neg hlen] at hparse
    simp at hparse
    exact hparse.symm

/-- Well-formedness is an invariant: `parse` keeps it, whatever it returns. -/
theorem parse_WF (E : ViewEnv) (v : View) (uri : URI) (hwf : v.WF) : (v.parse E uri).2.WF := by
  unfold View.parse
  cases hpath : E.uriFilename uri with
  | error err => exact hwf
  | ok path =>
    dsimp only
    obtain ⟨h1, h2⟩ := runHooks_files
      (E.packagesLoad (E.getLoadDir path) ("file=" ++ path)).parsed
      ({ v with ConfigDir := E.getLoadDir path } : View)
    have hwf2 := WF_of_files_eq h1 h2 hwf
    split
    · exact hwf2
    · dsimp only
      rw [populateAll_eq_foldl_treesOf]
      exact foldl_invariant (fun w (y : Ptr × Option AstFile) => w.populate E y.1 y.2) View.WF _
        (fun s y _ hs => populate_WF E s hs y.1 y.2) _ hwf2

/-- C9 (as stated, refuted): the load for `a.go` returns a unit whose only syntax tree is that of
`b.go`; `parse` returns no error, `HasParsed` is true for `b.go` and false for the URI parsed. -/
theorem parse_HasParsed_counterexample :
    (NewView.parse exampleViewEnv "file:///r/a/a.go").1 = none ∧
      (NewView.parse exampleViewEnv "file:///r/a/a.go").2.HasParsed "file:///r/a/a.go" = false ∧
      (NewView.parse exampleViewEnv "file:///r/a/a.go").2.HasParsed "file:///r/a/b.go" = true := by
  decide

/-- C9 (amended): after a `parse(uri)` that returns no error, `HasParsed` is true for the URI of
every file the load populated, that is of every non-nil syntax tree with a token file among the
returned units; so `HasParsed(uri)` is true whenever the file of `uri` is among them. -/
theorem parse_HasParsed_populated (E : ViewEnv) (v v2 : View) (uri : URI) (path : String)
    (hwf : v.WF) (hpath : E.uriFilename uri = Except.ok path)
    (hparse : v.parse E uri = (none, v2)) :
    (∀ x ∈ treesOf E (E.packagesLoad (E.getLoadDir path) ("file=" ++ path)).pkgs,
      ∀ n, populatedName E x = some n → v2.HasParsed (E.toURI n) = true) ∧
    ((∃ x ∈ treesOf E (E.packagesLoad (E.getLoadDir path) ("file=" ++ path)).pkgs,
      ∃ n, populatedName E x = some n ∧ E.toURI n = uri) → v2.HasParsed uri = true) := by
  have main : ∀ x ∈ treesOf E (E.packagesLoad (E.getLoadDir path) ("file=" ++ path)).pkgs,
      ∀ n, populatedName E x = some n → v2.HasParsed (E.toURI n) = true := by
    intro x hx n hn
    rw [parse_ok E v v2 uri path hpath hparse, populateAll_eq_foldl_treesOf]
    apply foldl_establish (fun w (y : Ptr × Option AstFile) => w.populate E y.1 y.2) View.WF
      (fun w => w.HasParsed (E.toURI n) = true) x
    · intro s y _ hs
      exact populate_WF E s hs y.1 y.2
    · intro s y _ hs hp
      exact populate_HasParsed_mono E s hs y.1 y.2 _ hp
    · intro s hs
      exact populate_HasParsed_self E s hs x.1 x.2 n hn
    · obtain ⟨h1, h2⟩ := runHooks_files
        (E.packagesLoad (E.getLoadDir path) ("file=" ++ path)).parsed
        ({ v with ConfigDir := E.getLoadDir path } : View)
      exact WF_of_files_eq h1 h2 hwf
    · exact Or.inr hx
  refine ⟨main, ?_⟩
  rintro ⟨x, hx, n, hn, hu⟩
  rw [← hu]
  exact main x hx n hn

theorem parse_HasParsed_populated_witness :
    (∀ x ∈ treesOf exampleViewEnv
        (exampleViewEnv.packagesLoad (exampleViewEnv.getLoadDir "/r/a/b.go")
          ("file=" ++ "/r/a/b.go")).pkgs,
      ∀ n, populatedName exampleViewEnv x = some n →
        (NewView.parse exampleViewEnv "file:///r/a/b.go").2.HasParsed
          (exampleViewEnv.toURI n) = true) ∧
    ((∃ x ∈ treesOf exampleViewEnv
        (exampleViewEnv.packagesLoad (exampleViewEnv.getLoadDir "/r/a/b.go")
          ("file=" ++ "/r/a/b.go")).pkgs,
      ∃ n, populatedName exampleViewEnv x = some n ∧
        exampleViewEnv.toURI n = "file:///r/a/b.go") →
      (NewView.parse exampleViewEnv "file:///r/a/b.go").2.HasParsed "file:///r/a/b.go" = true) :=
  parse_HasParsed_populated exampleViewEnv NewView
    (NewView.parse exampleViewEnv "file:///r/a/b.go").2 "file:///r/a/b.go" "/r/a/b.go"
    NewView_WF (by rfl) (by decide)

/-! ### Overlay content through `parse` -/

theorem parseFile_overlay_get (v : View) (c : String × Option Bytes) (n : String) :
    (v.parseFile c.1 c.2).tempOverlay.get n =
      (if c.1 = n then (if c.2.isSome then c.2 else v.tempOverlay.get n)
        else v.tempOverlay.get n) := by
  obtain ⟨name, src⟩ := c
  cases src with
  | none =>
    simp [View.parseFile]
  | some b =>
    by_cases e : name = n
    · subst e
      simp [View.parseFile, GoMap.get_set_self]
    · have e2 : n ≠ name := fun h => e h.symm
      simp [View.parseFile, e, GoMap.get_set_other _ _ e2]

theorem runHooks_overlay_foldl (n : String) (calls : List (String × Option Bytes)) :
    ∀ v : View, (v.runHooks calls).tempOverlay.get n =
      calls.foldl
        (fun acc call => if call.1 = n then (if call.2.isSome then call.2 else acc) else acc)
        (v.tempOverlay.get n) := by
  induction calls with
  | nil => intro v; rfl
  | cons c cs ih =>
    intro v
    unfold View.runHooks at ih ⊢
    rw [List.foldl_cons, List.foldl_cons, ih, parseFile_overlay_get]

theorem supplied_foldl_any (n : String) (b : Bytes) (calls : List (String × Option Bytes)) :
    ∀ acc : Option Bytes,
      calls.foldl
        (fun acc call => if call.1 = n then (if call.2.isSome then call.2 else acc) else acc)
        none = some b →
      calls.foldl
        (fun acc call => if call.1 = n then (if call.2.isSome then call.2 else acc) else acc)
        acc = some b := by
  induction calls with
  | nil => intro acc h; exact Option.noConfusion h
  | cons c cs ih =>
    intro acc h
    rw [List.foldl_cons] at h ⊢
    by_cases e : c.1 = n
    · by_cases e2 : c.2.isSome
      · simp only [e, e2, if_true] at h ⊢
        exact h
      · simp only [e, e2, if_true] at h ⊢
        exact ih acc h
    · simp only [e, if_false] at h ⊢
      exact ih acc h

theorem runHooks_overlay_supplied (v : View) (calls : List (String × Option Bytes)) (n : String)
    (b : Bytes) (h : suppliedContent calls n = some b) :
    (v.runHooks calls).tempOverlay.get n = some b := by
  rw [runHooks_overlay_foldl]
  exact supplied_foldl_any n b calls _ h

theorem get_delete_none {κ ν : Type} [DecidableEq κ] (m : GoMap κ ν) (k k2 : κ)
    (h : m.get k = none) : (GoMap.delete m k2).get k = none := by
  by_cases e : k = k2
  · rw [e]
    exact GoMap.get_delete_self m k2
  · rw [GoMap.get_delete_other m e]
    exact h

theorem populate_Merged (E : ViewEnv) (v : View) (hwf : v.WF) (pkg : Ptr)
    (fAST : Option AstFile) (U : URI) (n : String) (b : Bytes) (h : v.Merged U n b) :
    (v.populate E pkg fAST).Merged U n b := by
  cases hn : populatedName E (pkg, fAST) with
  | none =>
    rw [populate_skip E v pkg fAST hn]
    exact h
  | some m =>
    obtain ⟨ast, tok, rfl, htok, _⟩ := populatedName_some hn
    obtain ⟨file0, hfile, _⟩ := getFile_file v hwf (E.toURI tok.Name)
    rw [populate_some E v pkg ast tok file0 htok hfile]
    obtain ⟨f, x, hf, hx, hc, hov⟩ := h
    have hf1 := getFile_files_mono v (E.toURI tok.Name) hf
    have hx1 := getFile_file_mono v (E.toURI tok.Name) hx
    have hov2 : GoMap.get
        (if file0.content.isNone then GoMap.delete v.tempOverlay tok.Name else v.tempOverlay) n
        = none := by
      split
      · exact get_delete_none _ _ _ hov
      · exact hov
    by_cases e : (v.getFile (E.toURI tok.Name)).1 = f
    · have hx0 : file0 = x := by
        rw [e, hx1] at hfile
        cases hfile
        rfl
      refine ⟨f, populatedFile v.tempOverlay file0 pkg ast tok, hf1, ?_, ?_, hov2⟩
      · unfold View.file
        dsimp only
        rw [e]
        exact List.getElem?_set_self (file_some_lt hx1)
      · simp [populatedFile, hx0, hc]
    · refine ⟨f, x, hf1, ?_, hc, hov2⟩
      unfold View.file at hx1 ⊢
      dsimp only
      rw [List.getElem?_set_ne e]
      exact hx1

theorem populate_Pending_other (E : ViewEnv) (v : View) (hwf : v.WF) (pkg : Ptr)
    (fAST : Option AstFile) (m n : String) (b : Bytes)
    (hm : populatedName E (pkg, fAST) = some m) (hne : E.toURI m ≠ E.toURI n)
    (h : v.Pending (E.toURI n) n b) : (v.populate E pkg fAST).Pending (E.toURI n) n b := by
  obtain ⟨ast, tok, rfl, htok, rfl⟩ := populatedName_some hm
  obtain ⟨file0, hfile, _⟩ := getFile_file v hwf (E.toURI tok.Name)
  rw [populate_some E v pkg ast tok file0 htok hfile]
  have hwf1 := getFile_WF v hwf (E.toURI tok.Name)
  have hne2 : E.toURI n ≠ E.toURI tok.Name := fun e => hne e.symm
  have hmn : n ≠ tok.Name := fun e => hne (by rw [e])
  constructor
  · intro f x hf hx
    dsimp only at hf
    have hfv : v.files.get (E.toURI n) = some f := by
      rw [getFile_other v (E.toURI tok.Name) hne2] at hf
      exact hf
    have hlt := hwf.1 _ f hfv
    have hx0 : v.file f = some v.fileHeap[f] := by
      unfold View.file
      exact List.getElem?_eq_getElem hlt
    have hx1 := getFile_file_mono v (E.toURI tok.Name) hx0
    have hfne : (v.getFile (E.toURI tok.Name)).1 ≠ f := by
      intro e
      exact hne (hwf1.2 _ _ f (e ▸ getFile_registers v (E.toURI tok.Name)) hf)
    unfold View.file at hx hx1
    dsimp only at hx
    rw [List.getElem?_set_ne hfne, hx1] at hx
    cases hx
    exact h.1 f _ hfv hx0
  · dsimp only
    split
    · rw [GoMap.get_delete_other _ hmn]
      exact h.2
    · exact h.2

theorem populate_Pending_self (E : ViewEnv) (v : View) (hwf : v.WF) (pkg : Ptr)
    (fAST : Option AstFile) (n : String) (b : Bytes)
    (hn : populatedName E (pkg, fAST) = some n) (h : v.Pending (E.toURI n) n b) :
    (v.populate E pkg fAST).Merged (E.toURI n) n b := by
  obtain ⟨ast, tok, rfl, htok, rfl⟩ := populatedName_some hn
  obtain ⟨file0, hfile, horigin⟩ := getFile_file v hwf (E.toURI tok.Name)
  rw [populate_some E v pkg ast tok file0 htok hfile]
  have hnil : file0.content = none := by
    rcases horigin with ⟨f, hf, hx⟩ | ⟨_, hc⟩
    · exact h.1 f file0 hf hx
    · exact hc
  refine ⟨(v.getFile (E.toURI tok.Name)).1, populatedFile v.tempOverlay file0 pkg ast tok,
    getFile_registers v _, ?_, ?_, ?_⟩
  · unfold View.file
    dsimp only
    exact List.getElem?_set_self (file_some_lt hfile)
  · simp [populatedFile, hnil, h.2]
  · simp [hnil, GoMap.get_delete_self]

/-- C10 (as stated, refuted): a first parse gives the File of `a.go` the content `[111]`; during a
second successful parse the hook is handed `[110]` for the same file, yet the File keeps `[111]`
and the overlay still holds `[110]` under the filename, because the File's content was not nil. -/
theorem parse_overlay_counterexample :
    ((NewView.parse (overlayViewEnv [111]) "file:///r/a/a.go").2.parse
        (overlayViewEnv [110]) "file:///r/a/a.go").1 = none ∧
      suppliedContent
        ((overlayViewEnv [110]).packagesLoad "/r/a" "file=/r/a/a.go").parsed "/r/a/a.go" =
          some [110] ∧
      ((NewView.parse (overlayViewEnv [111]) "file:///r/a/a.go").2.parse
        (overlayViewEnv [110]) "file:///r/a/a.go").2 =
        { ConfigDir := "/r/a",
          files := [("file:///r/a/a.go", 0)],
          fileHeap := [{ URI := "file:///r/a/a.go", content := some [111],
                         ast := some { Pos := 1 },
                         token := some { Name := "/r/a/a.go", Base := 1 }, pkg := some 0 }],
          tempOverlay := [("/r/a/a.go", [110])] } := by
  decide

/-- C10 (amended): after a `parse` that returns no error, for every filename `n` that the load
populated, for which content `b` was supplied through the hook during that parse, whose File had
nil content (or did not exist) before the parse, and whose URI no other populated filename shares,
the File's content equals `b` and the overlay no longer has an entry for `n`. -/
theorem parse_merges_supplied_content (E : ViewEnv) (v v2 : View) (uri : URI) (path n : String)
    (b : Bytes) (hwf : v.WF) (hpath : E.uriFilename uri = Except.ok path)
    (hparse : v.parse E uri = (none, v2))
    (hpop : ∃ x ∈ treesOf E (E.packagesLoad (E.getLoadDir path) ("file=" ++ path)).pkgs,
      populatedName E x = some n)
    (hsup : suppliedContent (E.packagesLoad (E.getLoadDir path) ("file=" ++ path)).parsed n
      = some b)
    (hnil : ∀ f x, v.files.get (E.toURI n) = some f → v.file f = some x → x.content = none)
    (huniq : ∀ x ∈ treesOf E (E.packagesLoad (E.getLoadDir path) ("file=" ++ path)).pkgs,
      ∀ m, populatedName E x = some m → E.toURI m = E.toURI n → m = n) :
    ∃ f x, v2.files.get (E.toURI n) = some f ∧ v2.file f = some x ∧ x.content = some b ∧
      v2.tempOverlay.get n = none := by
  obtain ⟨x0, hx0, hn0⟩ := hpop
  have hfiles := runHooks_files (E.packagesLoad (E.getLoadDir path) ("file=" ++ path)).parsed
    ({ v with ConfigDir := E.getLoadDir path } : View)
  have hstart : (({ v with ConfigDir := E.getLoadDir path } : View).runHooks
      (E.packagesLoad (E.getLoadDir path) ("file=" ++ path)).parsed).Pending (E.toURI n) n b := by
    constructor
    · intro f x hf hx
      unfold View.file at hx
      rw [hfiles.1] at hf
      rw [hfiles.2] at hx
      exact hnil f x hf hx
    · exact runHooks_overlay_supplied _ _ n b hsup
  have hstep : ∀ s : View,
      ∀ x ∈ treesOf E (E.packagesLoad (E.getLoadDir path) ("file=" ++ path)).pkgs,
      (s.WF ∧ (s.Pending (E.toURI n) n b ∨ s.Merged (E.toURI n) n b)) →
      ((s.populate E x.1 x.2).WF ∧ ((s.populate E x.1 x.2).Pending (E.toURI n) n b ∨
        (s.populate E x.1 x.2).Merged (E.toURI n) n b)) := by
    intro s x hx hs
    obtain ⟨hswf, hs⟩ := hs
    refine ⟨populate_WF E s hswf x.1 x.2, ?_⟩
    rcases hs with hp | hm
    · cases hname : populatedName E (x.1, x.2) with
      | none =>
        rw [populate_skip E s x.1 x.2 hname]
        exact Or.inl hp
      | some m =>
        by_cases e : E.toURI m = E.toURI n
        · have hmn : m = n := huniq x hx m hname e
          rw [hmn] at hname
          exact Or.inr (populate_Pending_self E s hswf x.1 x.2 n b hname hp)
        · exact Or.inl (populate_Pending_other E s hswf x.1 x.2 m n b hname e hp)
    · exact Or.inr (populate_Merged E s hswf x.1 x.2 _ n b hm)
  rw [parse_ok E v v2 uri path hpath hparse, populateAll_eq_foldl_treesOf]
  exact foldl_establish (fun w (y : Ptr × Option AstFile) => w.populate E y.1 y.2)
    (fun s => s.WF ∧ (s.Pending (E.toURI n) n b ∨ s.Merged (E.toURI n) n b))
    (fun s => s.Merged (E.toURI n) n b) x0
    (treesOf E (E.packagesLoad (E.getLoadDir path) ("file=" ++ path)).pkgs) hstep
    (fun s y _ hs hm => populate_Merged E s hs.1 y.1 y.2 _ n b hm)
    (fun s hs => hs.2.elim (fun hp => populate_Pending_self E s hs.1 x0.1 x0.2 n b hn0 hp)
      (fun hm => populate_Merged E s hs.1 x0.1 x0.2 _ n b hm))
    _ ⟨WF_of_files_eq hfiles.1 hfiles.2 hwf, Or.inl hstart⟩ (Or.inr hx0)

theorem parse_merges_supplied_content_witness :
    ∃ f x, (NewView.parse (overlayViewEnv [111]) "file:///r/a/a.go").2.files.get
        ((overlayViewEnv [111]).toURI "/r/a/a.go") = some f ∧
      (NewView.parse (overlayViewEnv [111]) "file:///r/a/a.go").2.file f = some x ∧
      x.content = some [111] ∧
      (NewView.parse (overlayViewEnv [111]) "file:///r/a/a.go").2.tempOverlay.get "/r/a/a.go"
        = none :=
  parse_merges_supplied_content (overlayViewEnv [111]) NewView
    (NewView.parse (overlayViewEnv [111]) "file:///r/a/a.go").2 "file:///r/a/a.go" "/r/a/a.go"
    "/r/a/a.go" [111] NewView_WF (by rfl) (by decide)
    ⟨(0, some { Pos := 1 }), by decide, by decide⟩ (by decide)
    (fun f x h => by simp [NewView, GoMap.get] at h)
    (fun x hx m hm _ => by
      have hx2 : x = (0, some { Pos := 1 }) := by
        simpa [treesOf, overlayViewEnv, ViewEnv.deref] using hx
      subst hx2
      have hm2 : some "/r/a/a.go" = some m := hm
      cases hm2
      rfl)

/-! ### Errors of `parse`, `HasParsed`, the hook -/

/-- C11 (as stated, refuted): `parse` returns an error although the load, had it run, would have
yielded a unit: `uri.Filename()` failed, and `parse` returned that error before loading. -/
theorem parse_error_counterexample :
    NewView.parse noFilenameEnv "http://r/a/a.go" =
        (some "only file URIs are supported", NewView) ∧
      (noFilenameEnv.packagesLoad "/r/a" "file=/r/a/a.go").pkgs = [0] := by
  constructor
  · rfl
  · rfl

/-- C11 (amended): when `uri.Filename()` fails `parse` returns that error and leaves the view as it
was; when it succeeds, `parse` returns an error exactly when the load yields zero units, namely the
compiler's own error when it reported one and otherwise the not-found error naming the path, and
then no File is created or modified; when the load yields at least one unit `parse` returns nil. -/
theorem parse_error_cases (E : ViewEnv) (v : View) (uri : URI) :
    (∀ err, E.uriFilename uri = Except.error err → v.parse E uri = (some err, v)) ∧
    (∀ path, E.uriFilename uri = Except.ok path →
      (((v.parse E uri).1 ≠ none ↔
          (E.packagesLoad (E.getLoadDir path) ("file=" ++ path)).pkgs = []) ∧
        ((E.packagesLoad (E.getLoadDir path) ("file=" ++ path)).pkgs = [] →
          (v.parse E uri).1 =
              some (((E.packagesLoad (E.getLoadDir path) ("file=" ++ path)).err).getD
                ("no packages found for " ++ path)) ∧
            (v.parse E uri).2.files = v.files ∧ (v.parse E uri).2.fileHeap = v.fileHeap) ∧
        ((E.packagesLoad (E.getLoadDir path) ("file=" ++ path)).pkgs ≠ [] →
          (v.parse E uri).1 = none))) := by
  constructor
  · intro err herr
    unfold View.parse
    rw [herr]
  · intro path hpath
    have hfiles := runHooks_files (E.packagesLoad (E.getLoadDir path) ("file=" ++ path)).parsed
      ({ v with ConfigDir := E.getLoadDir path } : View)
    have hzero : (E.packagesLoad (E.getLoadDir path) ("file=" ++ path)).pkgs = [] →
        (v.parse E uri).1 =
            some (((E.packagesLoad (E.getLoadDir path) ("file=" ++ path)).err).getD
              ("no packages found for " ++ path)) ∧
          (v.parse E uri).2.files = v.files ∧ (v.parse E uri).2.fileHeap = v.fileHeap := by
      intro hnil
      unfold View.parse
      simp only [hpath]
      rw [if_pos (by rw [hnil]; rfl)]
      exact ⟨rfl, hfiles.1, hfiles.2⟩
    have hsome : (E.packagesLoad (E.getLoadDir path) ("file=" ++ path)).pkgs ≠ [] →
        (v.parse E uri).1 = none := by
      intro hne
      unfold View.parse
      simp only [hpath]
      rw [if_neg (fun h => hne (List.length_eq_zero.mp h))]
    refine ⟨⟨?_, ?_⟩, hzero, hsome⟩
    · intro herr
      by_contra hne
      exact herr (hsome hne)
    · intro hnil h
      rw [(hzero hnil).1] at h
      exact Option.noConfusion h

theorem parse_error_cases_witness :
    ((NewView.parse emptyLoadEnv "file:///r/a/a.go").1 ≠ none ↔
        (emptyLoadEnv.packagesLoad (emptyLoadEnv.getLoadDir "/r/a/a.go")
          ("file=" ++ "/r/a/a.go")).pkgs = []) ∧
      ((emptyLoadEnv.packagesLoad (emptyLoadEnv.getLoadDir "/r/a/a.go")
          ("file=" ++ "/r/a/a.go")).pkgs = [] →
        (NewView.parse emptyLoadEnv "file:///r/a/a.go").1 =
            some (((emptyLoadEnv.packagesLoad (emptyLoadEnv.getLoadDir "/r/a/a.go")
              ("file=" ++ "/r/a/a.go")).err).getD ("no packages found for " ++ "/r/a/a.go")) ∧
          (NewView.parse emptyLoadEnv "file:///r/a/a.go").2.files = NewView.files ∧
          (NewView.parse emptyLoadEnv "file:///r/a/a.go").2.fileHeap = NewView.fileHeap) ∧
      ((emptyLoadEnv.packagesLoad (emptyLoadEnv.getLoadDir "/r/a/a.go")
          ("file=" ++ "/r/a/a.go")).pkgs ≠ [] →
        (NewView.parse emptyLoadEnv "file:///r/a/a.go").1 = none) :=
  (parse_error_cases emptyLoadEnv NewView "file:///r/a/a.go").2 "/r/a/a.go" (by rfl)

/-- C12: `HasParsed(uri)` is true exactly when a File is registered under `uri` and its owning
unit is not nil, and it leaves the view as it was: for an unknown URI it answers false and the map
still lacks the URI, whereas `GetFile` would have registered it. -/
theorem HasParsed_reads_registry (v : View) (uri : URI) :
    (v.HasParsedRun uri).2 = v ∧
      (v.HasParsedRun uri).1 = v.HasParsed uri ∧
      ((v.HasParsedRun uri).1 = true ↔
        ∃ f file, v.files.get uri = some f ∧ v.file f = some file ∧ file.pkg ≠ none) ∧
      (v.files.get uri = none →
        (v.HasParsedRun uri).1 = false ∧ (v.HasParsedRun uri).2.files.get uri = none ∧
          (v.GetFile uri).2.files.get uri = some (v.GetFile uri).1) := by
  have hst : (v.HasParsedRun uri).2 = v := by
    unfold View.HasParsedRun
    cases v.files.get uri with
    | none => rfl
    | some f =>
      dsimp only
      cases v.file f <;> rfl
  have hval : (v.HasParsedRun uri).1 = v.HasParsed uri := by
    unfold View.HasParsedRun View.HasParsed
    cases v.files.get uri with
    | none => rfl
    | some f =>
      dsimp only
      cases v.file f <;> rfl
  refine ⟨hst, hval, ?_, ?_⟩
  · rw [hval, HasParsed_iff]
    constructor
    · rintro ⟨f, x, hf, hx, hp⟩
      refine ⟨f, x, hf, hx, ?_⟩
      intro hnone
      rw [hnone] at hp
      exact Bool.noConfusion hp
    · rintro ⟨f, x, hf, hx, hp⟩
      exact ⟨f, x, hf, hx, Option.isSome_iff_ne_none.mpr hp⟩
  · intro hnone
    refine ⟨?_, ?_, getFile_registers v uri⟩
    · unfold View.HasParsedRun
      rw [hnone]
    · rw [hst]
      exact hnone

theorem HasParsed_reads_registry_witness :
    (NewView.HasParsedRun "file:///r/a/a.go").1 = false ∧
      (NewView.HasParsedRun "file:///r/a/a.go").2.files.get "file:///r/a/a.go" = none ∧
      (NewView.GetFile "file:///r/a/a.go").2.files.get "file:///r/a/a.go" =
        some (NewView.GetFile "file:///r/a/a.go").1 :=
  (HasParsed_reads_registry NewView "file:///r/a/a.go").2.2.2 (by decide)

/-- C15: content interception. With non-nil content `src`, `parseFile` leaves the overlay with
`src` under the filename and every other overlay entry as it was; with nil content it leaves the
view, overlay included, unchanged. The registry and the Files are never touched. -/
theorem parseFile_records_content (v : View) (filename : String) :
    (∀ src : Bytes,
      (v.parseFile filename (some src)).tempOverlay.get filename = some src ∧
        (∀ other, other ≠ filename →
          (v.parseFile filename (some src)).tempOverlay.get other = v.tempOverlay.get other) ∧
        (v.parseFile filename (some src)).files = v.files ∧
        (v.parseFile filename (some src)).fileHeap = v.fileHeap) ∧
      v.parseFile filename none = v := by
  refine ⟨fun src => ⟨?_, ?_, rfl, rfl⟩, rfl⟩
  · exact GoMap.get_set_self v.tempOverlay filename src
  · intro other hne
    exact GoMap.get_set_other v.tempOverlay src hne

theorem parseFile_records_content_witness :
    (NewView.parseFile "/r/a/b.go" (some [1])).parseFile "/r/a/a.go" (some [2]) =
        { NewView with tempOverlay := [("/r/a/a.go", [2]), ("/r/a/b.go", [1])] } ∧
      ((NewView.parseFile "/r/a/b.go" (some [1])).parseFile "/r/a/a.go" (some [2])).tempOverlay.get
          "/r/a/b.go" =
        (NewView.parseFile "/r/a/b.go" (some [1])).tempOverlay.get "/r/a/b.go" :=
  ⟨by decide,
    ((parseFile_records_content (NewView.parseFile "/r/a/b.go" (some [1])) "/r/a/a.go").1 [2]).2.1
      "/r/a/b.go" (by decide)⟩

/-! ### Configuration -/

/-- C16: `Config.Apply` sets the corresponding field for each non-nil field of the options: each
of the seven fields of `c.Apply(o)` is what the option's field points to when that is non-nil and
the field of `c` otherwise; and `c.Apply(nil)` is `c`. -/
theorem Config_Apply_fields (c : Config) (o : InitializationOptions) :
    (c.Apply (some o)).DisableFuncSnippet = o.DisableFuncSnippet.getD c.DisableFuncSnippet ∧
      (c.Apply (some o)).DiagnosticsStyle = o.DiagnosticsStyle.getD c.DiagnosticsStyle ∧
      (c.Apply (some o)).EnableGlobalCache = o.EnableGlobalCache.getD c.EnableGlobalCache ∧
      (c.Apply (some o)).FormatStyle = o.FormatStyle.getD c.FormatStyle ∧
      (c.Apply (some o)).GoimportsLocalPrefix =
        o.GoimportsLocalPrefix.getD c.GoimportsLocalPrefix ∧
      (c.Apply (some o)).MaxParallelism = o.MaxParallelism.getD c.MaxParallelism ∧
      (c.Apply (some o)).GolistDuration = o.GolistDuration.getD c.GolistDuration ∧
      c.Apply none = c := by
  obtain ⟨o1, o2, o3, o4, o5, o6, o7⟩ := o
  unfold Config.Apply
  cases o1 <;> cases o2 <;> cases o3 <;> cases o4 <;> cases o5 <;> cases o6 <;> cases o7 <;>
    simp

/-! ### `getLoadDir` -/

/-- C18 (the code at the failing input): on Windows `getLoadDir("")` indexes `dir[0]` of an empty
string and panics; so does `Init` with an empty root, and so does a `Load` that misses on a cache
made by `New()`, whose root is still empty. -/
theorem getLoadDir_empty_panics :
    getLoadDir windowsEnv "" = none ∧
      Init windowsEnv New "" = none ∧
      Load windowsEnv New "C:/r/a" = none ∧
      Load windowsEnv New "" = none := by
  decide

/-- Away from the empty string on Windows `getLoadDir` returns: its argument off Windows, and on
Windows the argument without one leading slash, or unchanged when it has none. -/
theorem getLoadDir_returns (E : Env) (dir : String) :
    (E.GOOS ≠ windowsOS → getLoadDir E dir = some dir) ∧
      (E.GOOS = windowsOS → ∀ rest : List Char,
        (dir.data = '/' :: rest → getLoadDir E dir = some (String.mk rest)) ∧
          (∀ c, dir.data = c :: rest → c ≠ '/' → getLoadDir E dir = some dir)) := by
  constructor
  · intro h
    unfold getLoadDir
    rw [if_pos h]
  · intro h rest
    constructor
    · intro hd
      unfold getLoadDir
      rw [if_neg (not_not.mpr h), hd]
      simp
    · intro c hd hc
      unfold getLoadDir
      rw [if_neg (not_not.mpr h), hd]
      simp [hc]

/-! ### `Lookup` and `Iterate` -/

theorem RangeOrder_self {ν : Type} (m : GoMap String ν) (h : (m.map Prod.fst).Nodup) :
    RangeOrder m m := by
  refine ⟨h, ?_⟩
  induction m with
  | nil =>
    intro k v
    simp [GoMap.get]
  | cons e m ih =>
    obtain ⟨k1, v1⟩ := e
    rw [List.map_cons, List.nodup_cons] at h
    intro k v
    by_cases hk : k1 = k
    · subst hk
      have hnot : ∀ w, (k1, w) ∉ m := by
        intro w hw
        exact h.1 (List.mem_map.mpr ⟨(k1, w), hw, rfl⟩)
      simp [GoMap.get, hnot]
      exact eq_comm
    · have hne : ¬ ((k, v) = (k1, v1)) := by
        intro e
        exact hk (Prod.mk.inj e).1.symm
      simp only [GoMap.get, if_neg hk, List.mem_cons, hne, false_or]
      exact ih h.2 k v

theorem lookupLoop_none (E : Env) (s : String) :
    ∀ order : List (String × Ptr),
      lookupLoop E s order = none ↔ ∀ e ∈ order, (E.deref e.2).PkgPath ≠ s := by
  intro order
  induction order with
  | nil => simp [lookupLoop]
  | cons e rest ih =>
    unfold lookupLoop
    by_cases h : (E.deref e.2).PkgPath = s
    · simp [h]
    · simp [h, ih]

theorem lookupLoop_some (E : Env) (s : String) :
    ∀ (order : List (String × Ptr)) (p : Ptr), lookupLoop E s order = some p →
      (∃ k, (k, p) ∈ order) ∧ (E.deref p).PkgPath = s := by
  intro order
  induction order with
  | nil =>
    intro p h
    simp [lookupLoop] at h
  | cons e rest ih =>
    intro p h
    unfold lookupLoop at h
    by_cases hp : (E.deref e.2).PkgPath = s
    · rw [if_pos hp] at h
      cases h
      exact ⟨⟨e.1, List.mem_cons_self _ _⟩, hp⟩
    · rw [if_neg hp] at h
      obtain ⟨⟨k, hk⟩, hpath⟩ := ih p h
      exact ⟨⟨k, List.mem_cons_of_mem _ hk⟩, hpath⟩

/-- C13: `Lookup(s)` returns nil exactly when no cached unit has `PkgPath` equal to `s`; otherwise
it returns a unit that is a value of the pool and whose `PkgPath` is `s`; and it leaves the cache
as it was. This holds for every order in which the `range` may visit the pool. -/
theorem Lookup_finds_by_path (E : Env) (c : PackageCache) (order : List (String × Ptr))
    (s : String) (hord : RangeOrder c.pool order) :
    (Lookup E c order s).2 = c ∧
      ((Lookup E c order s).1 = none ↔
        ∀ k p, c.pool.get k = some p → (E.deref p).PkgPath ≠ s) ∧
      (∀ p, (Lookup E c order s).1 = some p →
        (∃ k, c.pool.get k = some p) ∧ (E.deref p).PkgPath = s) := by
  refine ⟨rfl, ?_, ?_⟩
  · show lookupLoop E s order = none ↔ _
    rw [lookupLoop_none]
    constructor
    · intro h k p hget
      exact h (k, p) ((hord.2 k p).mpr hget)
    · intro h e he
      exact h e.1 e.2 ((hord.2 e.1 e.2).mp he)
  · intro p hp
    obtain ⟨⟨k, hk⟩, hpath⟩ := lookupLoop_some E s order p hp
    exact ⟨⟨k, (hord.2 k p).mp hk⟩, hpath⟩

theorem Lookup_finds_by_path_witness :
    (Lookup exampleEnv { pool := [("/r/a", 0)], rootDir := "/r", loads := 1 } [("/r/a", 0)]
        "r/a").2 = { pool := [("/r/a", 0)], rootDir := "/r", loads := 1 } ∧
      ((Lookup exampleEnv { pool := [("/r/a", 0)], rootDir := "/r", loads := 1 } [("/r/a", 0)]
          "r/a").1 = none ↔
        ∀ k p, GoMap.get ([("/r/a", 0)] : packagePool) k = some p →
          (exampleEnv.deref p).PkgPath ≠ "r/a") ∧
      (∀ p, (Lookup exampleEnv { pool := [("/r/a", 0)], rootDir := "/r", loads := 1 }
          [("/r/a", 0)] "r/a").1 = some p →
        (∃ k, GoMap.get ([("/r/a", 0)] : packagePool) k = some p) ∧
          (exampleEnv.deref p).PkgPath = "r/a") :=
  Lookup_finds_by_path exampleEnv { pool := [("/r/a", 0)], rootDir := "/r", loads := 1 }
    [("/r/a", 0)] "r/a" (RangeOrder_self _ (by decide))

theorem iterateLoop_cons_err {σ : Type} (visit : σ → Ptr → σ × Option GoError)
    (e : String × Ptr) (rest : List (String × Ptr)) (s s1 : σ) (err : GoError)
    (h : visit s e.2 = (s1, some err)) :
    iterateLoop visit (e :: rest) s = (some err, s1, [(e, some err)]) := by
  conv_lhs => unfold iterateLoop
  rw [h]

theorem iterateLoop_cons_ok {σ : Type} (visit : σ → Ptr → σ × Option GoError)
    (e : String × Ptr) (rest : List (String × Ptr)) (s s1 : σ)
    (h : visit s e.2 = (s1, none)) :
    iterateLoop visit (e :: rest) s =
      ((iterateLoop visit rest s1).1, (iterateLoop visit rest s1).2.1,
        (e, none) :: (iterateLoop visit rest s1).2.2) := by
  conv_lhs => unfold iterateLoop
  rw [h]

/-- The calls of the loop are on an initial segment of the order, all of it when no call fails;
a failing call is the last call and its error is the result. -/
theorem iterateLoop_spec {σ : Type} (visit : σ → Ptr → σ × Option GoError) :
    ∀ (order : List (String × Ptr)) (s : σ),
      (∃ rest, order = (iterateLoop visit order s).2.2.map Prod.fst ++ rest ∧
        ((iterateLoop visit order s).1 = none → rest = [])) ∧
      (∀ err, (iterateLoop visit order s).1 = some err →
        ∃ init e, (iterateLoop visit order s).2.2 = init ++ [(e, some err)] ∧
          ∀ t ∈ init, t.2 = none) ∧
      ((iterateLoop visit order s).1 = none → ∀ t ∈ (iterateLoop visit order s).2.2, t.2 = none) := by
  intro order
  induction order with
  | nil =>
    intro s
    refine ⟨⟨[], rfl, fun _ => rfl⟩, ?_, ?_⟩
    · intro err h
      exact Option.noConfusion h
    · intro _ t ht
      exact absurd ht (List.not_mem_nil _)
  | cons e rest ih =>
    intro s
    cases hv : visit s e.2 with
    | mk s1 oe =>
      cases oe with
      | some err =>
        rw [iterateLoop_cons_err visit e rest s s1 err hv]
        refine ⟨⟨rest, rfl, fun h => Option.noConfusion h⟩, ?_, ?_⟩
        · intro err2 h
          cases h
          exact ⟨[], e, rfl, fun t ht => absurd ht (List.not_mem_nil _)⟩
        · intro h
          exact Option.noConfusion h
      | none =>
        rw [iterateLoop_cons_ok visit e rest s s1 hv]
        obtain ⟨⟨rest2, hseg, hall⟩, herr, hnone⟩ := ih s1
        refine ⟨⟨rest2, ?_, hall⟩, ?_, ?_⟩
        · simp only [List.map_cons, List.cons_append]
          rw [← hseg]
        · intro err h
          obtain ⟨init, e2, htr, hinit⟩ := herr err h
          refine ⟨(e, none) :: init, e2, ?_, ?_⟩
          · simp only [htr, List.cons_append]
          · intro t ht
            rcases List.mem_cons.mp ht with rfl | ht
            · rfl
            · exact hinit t ht
        · intro h t ht
          rcases List.mem_cons.mp ht with rfl | ht
          · rfl
          · exact hnone h t ht

/-- The trace the loop returns is a run of the visitor from the initial state to the returned one. -/
theorem iterateLoop_run {σ : Type} (visit : σ → Ptr → σ × Option GoError) :
    ∀ (order : List (String × Ptr)) (s : σ),
      VisitRun visit s (iterateLoop visit order s).2.2 (iterateLoop visit order s).2.1 := by
  intro order
  induction order with
  | nil => intro s; exact VisitRun.nil s
  | cons e rest ih =>
    intro s
    cases hv : visit s e.2 with
    | mk s1 oe =>
      cases oe with
      | some err =>
        rw [iterateLoop_cons_err visit e rest s s1 err hv]
        exact VisitRun.cons hv (VisitRun.nil s1)
      | none =>
        rw [iterateLoop_cons_ok visit e rest s s1 hv]
        exact VisitRun.cons hv (ih s1)

/-- C14: `Iterate` calls the visitor on cached units, each pool entry at most once: the trace is a
run of the visitor, every call made on the unit of a pool entry in the state the previous call
left, and the returned visitor state is the one after the last call. A visitor call that returns
an error is the last call and `Iterate` returns that error; when no call returns an error the
visitor has been called exactly once for every pool entry and `Iterate` returns nil. The cache is
left as it was. This holds for every order in which the `range` may visit the pool. -/
theorem Iterate_visits_pool {σ : Type} (c : PackageCache) (order : List (String × Ptr))
    (visit : σ → Ptr → σ × Option GoError) (s : σ) (hord : RangeOrder c.pool order) :
    (Iterate c order visit s).2 = c ∧
      VisitRun visit s (Iterate c order visit s).1.2.2 (Iterate c order visit s).1.2.1 ∧
      (∃ rest, order = (Iterate c order visit s).1.2.2.map Prod.fst ++ rest) ∧
      (∀ t ∈ (Iterate c order visit s).1.2.2, c.pool.get t.1.1 = some t.1.2) ∧
      (((Iterate c order visit s).1.2.2.map Prod.fst).map Prod.fst).Nodup ∧
      (∀ err, (Iterate c order visit s).1.1 = some err →
        ∃ init e, (Iterate c order visit s).1.2.2 = init ++ [(e, some err)] ∧
          ∀ t ∈ init, t.2 = none) ∧
      (∀ t ∈ (Iterate c order visit s).1.2.2, ∀ err, t.2 = some err →
        (Iterate c order visit s).1.1 = some err) ∧
      ((Iterate c order visit s).1.1 = none →
        (∀ t ∈ (Iterate c order visit s).1.2.2, t.2 = none) ∧
          (Iterate c order visit s).1.2.2.map Prod.fst = order ∧
          ∀ k p, c.pool.get k = some p ↔
            (k, p) ∈ (Iterate c order visit s).1.2.2.map Prod.fst) := by
  show _ ∧ VisitRun visit s (iterateLoop visit order s).2.2 (iterateLoop visit order s).2.1 ∧
    (∃ rest, order = (iterateLoop visit order s).2.2.map Prod.fst ++ rest) ∧
    (∀ t ∈ (iterateLoop visit order s).2.2, _) ∧
    (((iterateLoop visit order s).2.2.map Prod.fst).map Prod.fst).Nodup ∧
    (∀ err, (iterateLoop visit order s).1 = some err → _) ∧
    (∀ t ∈ (iterateLoop visit order s).2.2, ∀ err, t.2 = some err →
      (iterateLoop visit order s).1 = some err) ∧
    ((iterateLoop visit order s).1 = none → _)
  obtain ⟨⟨rest, hseg, hall⟩, herr, hnone⟩ := iterateLoop_spec visit order s
  refine ⟨rfl, iterateLoop_run visit order s, ⟨rest, hseg⟩, ?_, ?_, herr, ?_, ?_⟩
  · intro t ht
    apply (hord.2 t.1.1 t.1.2).mp
    rw [hseg]
    exact List.mem_append_left _ (List.mem_map.mpr ⟨t, ht, rfl⟩)
  · have hnd := hord.1
    rw [hseg, List.map_append] at hnd
    exact hnd.of_append_left
  · intro t ht err hterr
    cases hres : (iterateLoop visit order s).1 with
    | none =>
      have := hnone hres t ht
      rw [this] at hterr
      exact Option.noConfusion hterr
    | some err2 =>
      obtain ⟨init, e, htr, hinit⟩ := herr err2 hres
      rw [htr] at ht
      rcases List.mem_append.mp ht with hin | hlast
      · rw [hinit t hin] at hterr
        exact Option.noConfusion hterr
      · rw [List.mem_singleton.mp hlast] at hterr
        exact hterr
  · intro hres
    have hrest := hall hres
    rw [hrest, List.append_nil] at hseg
    refine ⟨hnone hres, hseg.symm, ?_⟩
    intro k p
    show _ ↔ (k, p) ∈ List.map Prod.fst (iterateLoop visit order s).2.2
    rw [← hseg]
    exact (hord.2 k p).symm

theorem Iterate_visits_pool_witness :
    VisitRun (failingVisitor 1) 0
        (Iterate { pool := [("/lib/c", 2), ("/lib/b", 1), ("/r/a", 0)], rootDir := "/r",
                   loads := 1 }
          [("/r/a", 0), ("/lib/b", 1), ("/lib/c", 2)] (failingVisitor 1) 0).1.2.2
        (Iterate { pool := [("/lib/c", 2), ("/lib/b", 1), ("/r/a", 0)], rootDir := "/r",
                   loads := 1 }
          [("/r/a", 0), ("/lib/b", 1), ("/lib/c", 2)] (failingVisitor 1) 0).1.2.1 ∧
      (Iterate { pool := [("/lib/c", 2), ("/lib/b", 1), ("/r/a", 0)], rootDir := "/r",
                 loads := 1 }
        [("/r/a", 0), ("/lib/b", 1), ("/lib/c", 2)] (failingVisitor 1) 0).1 =
        (some "boom", 2, [(("/r/a", 0), none), (("/lib/b", 1), some "boom")]) :=
  ⟨(Iterate_visits_pool
      { pool := [("/lib/c", 2), ("/lib/b", 1), ("/r/a", 0)], rootDir := "/r", loads := 1 }
      [("/r/a", 0), ("/lib/b", 1), ("/lib/c", 2)] (failingVisitor 1) 0
      ⟨by decide, fun k v => by
        simp only [GoMap.get, List.mem_cons, List.mem_singleton, Prod.mk.injEq, List.not_mem_nil,
          or_false]
        constructor
        · rintro (⟨rfl, rfl⟩ | ⟨rfl, rfl⟩ | ⟨rfl, rfl⟩) <;> decide
        · intro h
          by_cases h1 : "/lib/c" = k
          · rw [if_pos h1] at h
            exact Or.inr (Or.inr ⟨h1.symm, (Option.some.inj h).symm⟩)
          · rw [if_neg h1] at h
            by_cases h2 : "/lib/b" = k
            · rw [if_pos h2] at h
              exact Or.inr (Or.inl ⟨h2.symm, (Option.some.inj h).symm⟩)
            · rw [if_neg h2] at h
              by_cases h3 : "/r/a" = k
              · rw [if_pos h3] at h
                exact Or.inl ⟨h3.symm, (Option.some.inj h).symm⟩
              · rw [if_neg h3] at h
                exact Option.noConfusion h⟩).2.1,
    by decide⟩

/-! ### Key consistency of the pool -/

theorem keys_consistent_of_post {E : Env} {pool pool2 : packagePool} {l : List Ptr}
    (h : ∀ k p, pool.get k = some p → cacheKeyOf E p = some k)
    (hpost : CachePost E pool l pool2) :
    ∀ k p, pool2.get k = some p → cacheKeyOf E p = some k := by
  intro k p hget
  cases hold : pool.get k with
  | none => exact (hpost.closed k p hget hold).1
  | some v =>
    have h2 := hpost.le k v hold
    rw [hget] at h2
    cases h2
    exact h k p hold

theorem buildCache_pool_shape {E : Env} {c c2 : PackageCache} {e : Option GoError}
    (h : buildCache E c = some (e, c2)) : c2.pool = [] ∨ ∃ l, c2.pool = push E [] l := by
  unfold buildCache at h
  simp only at h
  cases hd : getLoadDir E c.rootDir with
  | none => simp [hd] at h
  | some loadDir =>
    simp only [hd] at h
    cases he : (E.packagesLoad c.loads (loadDir ++ "/...")).2 with
    | some err =>
      simp only [he] at h
      simp at h
      exact Or.inl (by rw [← h.2])
    | none =>
      simp only [he] at h
      simp at h
      exact Or.inr ⟨_, by rw [← h.2]⟩

theorem buildCache_keys_consistent {E : Env} {c c2 : PackageCache} {e : Option GoError}
    (h : buildCache E c = some (e, c2)) :
    ∀ k p, c2.pool.get k = some p → cacheKeyOf E p = some k := by
  have hempty : ∀ k p, GoMap.get ([] : packagePool) k = some p → cacheKeyOf E p = some k := by
    intro k p hget
    simp [GoMap.get] at hget
  rcases buildCache_pool_shape h with h0 | ⟨l, hl⟩
  · rw [h0]
    exact hempty
  · rw [hl]
    exact keys_consistent_of_post hempty (push_post E l [])

/-- C19: key consistency of the pool. In every state reachable from `New()` through `Init`,
`Load`, `push` and `cache`, every pool entry binds a key to a unit that has at least one compiled
source file, and the key is `getCacheKeyFromFile` of the unit's first compiled file. -/
theorem pool_keys_consistent (E : Env) (c : PackageCache) (hreach : ReachableCache E c) :
    ∀ k p, c.pool.get k = some p →
      ∃ file rest, (E.deref p).CompiledGoFiles = file :: rest ∧
        k = getCacheKeyFromFile E file := by
  have main : ∀ k p, c.pool.get k = some p → cacheKeyOf E p = some k := by
    induction hreach with
    | new =>
      intro k p hget
      simp [New, GoMap.get] at hget
    | init _ hinit _ => exact buildCache_keys_consistent hinit
    | @load c c2 d r _ hload ih =>
      unfold Load at hload
      cases hd : getLoadDir E d with
      | none => simp [hd] at hload
      | some loadDir =>
        simp only [hd] at hload
        cases hget : c.pool.get (loadCacheKey E loadDir) with
        | some v =>
          simp only [hget] at hload
          simp at hload
          rw [← hload.2]
          exact ih
        | none =>
          simp only [hget] at hload
          cases hb : buildCache E c with
          | none => simp [hb] at hload
          | some res =>
            obtain ⟨e2, c3⟩ := res
            simp only [hb] at hload
            simp at hload
            rw [← hload.2]
            exact buildCache_keys_consistent hb
    | push pkgList _ ih => exact keys_consistent_of_post ih (push_post E pkgList _)
    | cache pkg _ ih => exact keys_consistent_of_post ih (cache_post E _ pkg)
  intro k p hget
  have hkey := main k p hget
  unfold cacheKeyOf at hkey
  cases hf : (E.deref p).CompiledGoFiles with
  | nil => simp [hf] at hkey
  | cons file rest =>
    simp [hf] at hkey
    exact ⟨file, rest, rfl, hkey.symm⟩

theorem pool_keys_consistent_witness :
    ∃ file rest, (exampleEnv.deref 0).CompiledGoFiles = file :: rest ∧
      "/r/a" = getCacheKeyFromFile exampleEnv file :=
  pool_keys_consistent exampleEnv { pool := [("/r/a", 0)], rootDir := "/r", loads := 1 }
    (@ReachableCache.init exampleEnv New { pool := [("/r/a", 0)], rootDir := "/r", loads := 1 }
      "/r" none ReachableCache.new (by decide)) "/r/a" 0 (by decide)

/-! ### Termination of `cache` and the size of its traversal -/

theorem Reachable_mono {E : Env} {roots roots2 : List Ptr} (hsub : ∀ r ∈ roots, r ∈ roots2)
    {u : Ptr} (h : Reachable E roots u) : Reachable E roots2 u := by
  induction h with
  | root hmem => exact Reachable.root (hsub _ hmem)
  | step _ hq ih => exact Reachable.step ih hq

theorem Reachable_of_imports {E : Env} {p u : Ptr} (h : Reachable E (importsOf E p) u) :
    Reachable E [p] u := by
  induction h with
  | root hmem => exact Reachable.step (Reachable.root (List.mem_singleton.mpr rfl)) hmem
  | step _ hq ih => exact Reachable.step ih hq

theorem cacheTrace_nofiles {E : Env} {p : Ptr} (n : Nat) (pool : packagePool)
    (h : cacheKeyOf E p = none) : cacheTrace E (n + 1) pool p = some (pool, []) := by
  unfold cacheKeyOf at h
  unfold cacheTrace
  cases hf : (E.deref p).CompiledGoFiles with
  | nil => rfl
  | cons f fs => simp [hf] at h

theorem cacheTrace_present {E : Env} {p : Ptr} {k : String} (n : Nat) (pool : packagePool)
    (h : cacheKeyOf E p = some k) (hk : (pool.get k).isSome) :
    cacheTrace E (n + 1) pool p = some (pool, []) := by
  unfold cacheKeyOf at h
  unfold cacheTrace
  cases hf : (E.deref p).CompiledGoFiles with
  | nil => rfl
  | cons f fs =>
    simp [hf] at h
    subst h
    simp [hk]

theorem cacheTrace_absent {E : Env} {p : Ptr} {k : String} (n : Nat) (pool : packagePool)
    (h : cacheKeyOf E p = some k) (hk : pool.get k = none) :
    cacheTrace E (n + 1) pool p =
      (importsOf E p).foldlM
        (fun st q => (cacheTrace E n st.1 q).map (fun r => (r.1, st.2 ++ r.2)))
        (pool.set k p, [p]) := by
  unfold cacheKeyOf at h
  conv_lhs => unfold cacheTrace
  cases hf : (E.deref p).CompiledGoFiles with
  | nil => simp [hf] at h
  | cons f fs =>
    simp [hf] at h
    subst h
    simp [hk, importsOf]

theorem cacheTrace_foldlM_fst (E : Env) (n : Nat)
    (IH : ∀ pool p, (cacheTrace E n pool p).map Prod.fst = cacheFuel E n pool p) :
    ∀ (l : List Ptr) (st : packagePool × List Ptr),
      (l.foldlM (fun st q => (cacheTrace E n st.1 q).map (fun r => (r.1, st.2 ++ r.2))) st).map
          Prod.fst =
        l.foldlM (fun pl q => cacheFuel E n pl q) st.1 := by
  intro l
  induction l with
  | nil => intro st; rfl
  | cons q l ih =>
    intro st
    rw [List.foldlM_cons, List.foldlM_cons]
    have hq := IH st.1 q
    cases ht : cacheTrace E n st.1 q with
    | none =>
      rw [ht] at hq
      rw [← hq]
      rfl
    | some r =>
      rw [ht] at hq
      rw [← hq]
      exact ih (r.1, st.2 ++ r.2)

/-- Erasing the trace of the instrumented recursion gives the recursion of `cache`. -/
theorem cacheTrace_fst (E : Env) :
    ∀ (n : Nat) (pool : packagePool) (p : Ptr),
      (cacheTrace E n pool p).map Prod.fst = cacheFuel E n pool p := by
  intro n
  induction n with
  | zero => intro pool p; rfl
  | succ n ih =>
    intro pool p
    cases hkey : cacheKeyOf E p with
    | none => rw [cacheTrace_nofiles n pool hkey, cacheFuel_nofiles n pool hkey]; rfl
    | some k =>
      cases hget : pool.get k with
      | some v =>
        have hpres : (pool.get k).isSome := by rw [hget]; rfl
        rw [cacheTrace_present n pool hkey hpres, cacheFuel_present n pool hkey hpres]
        rfl
      | none =>
        rw [cacheTrace_absent n pool hkey hget, cacheFuel_absent n pool hkey hget]
        exact cacheTrace_foldlM_fst E n ih (importsOf E p) (pool.set k p, [p])

theorem TracePost_nil (E : Env) (pool : packagePool) (roots : List Ptr) :
    TracePost E pool roots pool [] :=
  ⟨PoolLe_refl pool, fun _ h => absurd h (List.not_mem_nil _), List.nodup_nil,
    fun _ h => absurd h (List.not_mem_nil _)⟩

theorem TracePost_cons {E : Env} {a b c : packagePool} {q : Ptr} {l : List Ptr}
    {t1 t2 : List Ptr} (h1 : TracePost E a [q] b t1) (h2 : TracePost E b l c t2) :
    TracePost E a (q :: l) c (t1 ++ t2) := by
  refine ⟨PoolLe_trans h1.le h2.le, ?_, ?_, ?_⟩
  · intro u hu
    rcases List.mem_append.mp hu with hu | hu
    · obtain ⟨k, hk, hnone, hsome⟩ := h1.fresh u hu
      exact ⟨k, hk, hnone, PoolLe_isSome h2.le hsome⟩
    · obtain ⟨k, hk, hnone, hsome⟩ := h2.fresh u hu
      exact ⟨k, hk, PoolLe_none h1.le hnone, hsome⟩
  · rw [List.map_append, List.nodup_append]
    refine ⟨h1.nodup, h2.nodup, ?_⟩
    intro x hx1 hx2
    obtain ⟨u1, hu1, rfl⟩ := List.mem_map.mp hx1
    obtain ⟨u2, hu2, he⟩ := List.mem_map.mp hx2
    obtain ⟨k1, hk1, _, hsome⟩ := h1.fresh u1 hu1
    obtain ⟨k2, hk2, hnone, _⟩ := h2.fresh u2 hu2
    rw [hk1, hk2] at he
    cases he
    rw [hnone] at hsome
    exact Bool.noConfusion hsome
  · intro u hu
    rcases List.mem_append.mp hu with hu | hu
    · exact Reachable_mono (fun r hr => by
        rw [List.mem_singleton.mp hr]; exact List.mem_cons_self _ _) (h1.reach u hu)
    · exact Reachable_mono (fun r hr => List.mem_cons_of_mem _ hr) (h2.reach u hu)

theorem cacheTrace_foldlM_post (E : Env) (n : Nat)
    (IH : ∀ pool p pool2 tr, cacheTrace E n pool p = some (pool2, tr) →
      TracePost E pool [p] pool2 tr) :
    ∀ (l : List Ptr) (pool : packagePool) (acc : List Ptr) (pool2 : packagePool)
      (tr : List Ptr),
      l.foldlM (fun st q => (cacheTrace E n st.1 q).map (fun r => (r.1, st.2 ++ r.2)))
          (pool, acc) = some (pool2, tr) →
      ∃ new, tr = acc ++ new ∧ TracePost E pool l pool2 new := by
  intro l
  induction l with
  | nil =>
    intro pool acc pool2 tr h
    have h2 : (pool, acc) = (pool2, tr) := Option.some.inj h
    cases h2
    exact ⟨[], (List.append_nil _).symm, TracePost_nil E pool []⟩
  | cons q l ih =>
    intro pool acc pool2 tr h
    rw [List.foldlM_cons] at h
    cases ht : cacheTrace E n pool q with
    | none =>
      simp only [ht] at h
      exact Option.noConfusion h
    | some r =>
      obtain ⟨pool1, t1⟩ := r
      simp only [ht] at h
      obtain ⟨new, hnew, hpost⟩ := ih pool1 (acc ++ t1) pool2 tr h
      refine ⟨t1 ++ new, ?_, TracePost_cons (IH pool q pool1 t1 ht) hpost⟩
      rw [hnew, List.append_assoc]

theorem cacheTrace_post (E : Env) :
    ∀ (n : Nat) (pool : packagePool) (p : Ptr) (pool2 : packagePool) (tr : List Ptr),
      cacheTrace E n pool p = some (pool2, tr) → TracePost E pool [p] pool2 tr := by
  intro n
  induction n with
  | zero =>
    intro pool p pool2 tr h
    simp [cacheTrace] at h
  | succ n ih =>
    intro pool p pool2 tr h
    cases hkey : cacheKeyOf E p with
    | none =>
      rw [cacheTrace_nofiles n pool hkey] at h
      have h2 : (pool, ([] : List Ptr)) = (pool2, tr) := Option.some.inj h
      cases h2
      exact TracePost_nil E pool [p]
    | some k =>
      cases hget : pool.get k with
      | some v =>
        have hpres : (pool.get k).isSome := by rw [hget]; rfl
        rw [cacheTrace_present n pool hkey hpres] at h
        have h2 : (pool, ([] : List Ptr)) = (pool2, tr) := Option.some.inj h
        cases h2
        exact TracePost_nil E pool [p]
      | none =>
        rw [cacheTrace_absent n pool hkey hget] at h
        obtain ⟨new, hnew, hpost⟩ :=
          cacheTrace_foldlM_post E n ih (importsOf E p) (pool.set k p) [p] pool2 tr h
        have hle0 : PoolLe pool (pool.set k p) := PoolLe_set_absent p hget
        have hp2 : (pool2.get k).isSome :=
          PoolLe_isSome hpost.le (by rw [GoMap.get_set_self]; rfl)
        subst hnew
        refine ⟨PoolLe_trans hle0 hpost.le, ?_, ?_, ?_⟩
        · intro u hu
          rcases List.mem_cons.mp hu with rfl | hu
          · exact ⟨k, hkey, hget, hp2⟩
          · obtain ⟨ku, hku, hnone, hsome⟩ := hpost.fresh u hu
            exact ⟨ku, hku, PoolLe_none hle0 hnone, hsome⟩
        · show (cacheKeyOf E p :: new.map (cacheKeyOf E)).Nodup
          rw [List.nodup_cons]
          refine ⟨?_, hpost.nodup⟩
          intro hmem
          obtain ⟨u, hu, he⟩ := List.mem_map.mp hmem
          obtain ⟨ku, hku, hnone, _⟩ := hpost.fresh u hu
          rw [hku, hkey] at he
          cases he
          rw [GoMap.get_set_self] at hnone
          exact Option.noConfusion hnone
        · intro u hu
          rcases List.mem_cons.mp hu with rfl | hu
          · exact Reachable.root (List.mem_singleton.mpr rfl)
          · exact Reachable_of_imports (hpost.reach u hu)

/-- C20: the recursive insertion terminates on every finite dependency graph, cyclic ones
included: with any fuel above the heap size the recursion returns the pool of `cache`. Every unit
whose imports are traversed is reachable from the argument and was inserted under a key the pool
lacked, no two of them share a key, and so their number is at most the number of distinct cache
keys among the reachable units (the size of any finite set holding all those keys). -/
theorem cache_terminates_bounded (E : Env) (pool : packagePool) (p : Ptr) :
    (∀ n, E.heap.length + 1 ≤ n → cacheFuel E n pool p = some (cache E pool p)) ∧
      ∃ tr, cacheTrace E (E.heap.length + 1) pool p = some (cache E pool p, tr) ∧
        (∀ u ∈ tr, Reachable E [p] u ∧
          ∃ k, cacheKeyOf E u = some k ∧ pool.get k = none ∧
            ((cache E pool p).get k).isSome) ∧
        (tr.map (cacheKeyOf E)).Nodup ∧
        ∀ S : Finset String,
          (∀ u k, Reachable E [p] u → cacheKeyOf E u = some k → k ∈ S) → tr.length ≤ S.card := by
  refine ⟨fun n hn => cacheFuel_cache E pool p n hn, ?_⟩
  have hfst := cacheTrace_fst E (E.heap.length + 1) pool p
  rw [cacheFuel_cache E pool p (E.heap.length + 1) (Nat.le_refl _)] at hfst
  cases ht : cacheTrace E (E.heap.length + 1) pool p with
  | none =>
    rw [ht] at hfst
    exact Option.noConfusion hfst
  | some r =>
    obtain ⟨pool2, tr⟩ := r
    rw [ht] at hfst
    have hpool : pool2 = cache E pool p := Option.some.inj hfst
    subst hpool
    have hpost := cacheTrace_post E _ pool p _ tr ht
    refine ⟨tr, rfl, fun u hu => ⟨hpost.reach u hu, hpost.fresh u hu⟩, hpost.nodup, ?_⟩
    intro S hS
    have hsub : (tr.map (cacheKeyOf E)).toFinset ⊆ S.image some := by
      intro x hx
      rw [List.mem_toFinset] at hx
      obtain ⟨u, hu, rfl⟩ := List.mem_map.mp hx
      obtain ⟨k, hk, _, _⟩ := hpost.fresh u hu
      rw [hk]
      exact Finset.mem_image_of_mem some (hS u k (hpost.reach u hu) hk)
    calc tr.length = (tr.map (cacheKeyOf E)).length := (List.length_map _ _).symm
      _ = (tr.map (cacheKeyOf E)).toFinset.card := (List.toFinset_card_of_nodup hpost.nodup).symm
      _ ≤ (S.image some).card := Finset.card_le_card hsub
      _ ≤ S.card := Finset.card_image_le

theorem cache_terminates_bounded_witness :
    cacheFuel cyclicEnv 10 [] 0 = some (cache cyclicEnv [] 0) ∧
      cacheTrace cyclicEnv 4 [] 0 =
        some ([("/r/c", 2), ("/r/b", 1), ("/r/a", 0)], [0, 1, 2]) :=
  ⟨(cache_terminates_bounded cyclicEnv [] 0).1 10 (by decide), by decide⟩

/-! ### Several units with the same file -/

theorem lastTreeFor_concat (E : ViewEnv) (U : URI) (l : List (Ptr × Option AstFile))
    (y : Ptr × Option AstFile) :
    lastTreeFor E U (l ++ [y]) =
      if (populatedName E y).map E.toURI = some U then some y else lastTreeFor E U l := by
  unfold lastTreeFor
  rw [List.foldl_append]
  rfl

/-- The pair `lastTreeFor` selects populates the File under `U`, and no later pair does. -/
theorem lastTreeFor_spec (E : ViewEnv) (U : URI) :
    ∀ (trees : List (Ptr × Option AstFile)) (x : Ptr × Option AstFile),
      lastTreeFor E U trees = some x →
      (populatedName E x).map E.toURI = some U ∧
        ∃ l1 l2, trees = l1 ++ x :: l2 ∧
          ∀ z ∈ l2, (populatedName E z).map E.toURI ≠ some U := by
  intro trees
  induction trees using List.reverseRecOn with
  | nil =>
    intro x h
    simp [lastTreeFor] at h
  | append_singleton l y ih =>
    intro x h
    rw [lastTreeFor_concat] at h
    by_cases hy : (populatedName E y).map E.toURI = some U
    · rw [if_pos hy] at h
      cases h
      exact ⟨hy, l, [], rfl, fun z hz => absurd hz (List.not_mem_nil _)⟩
    · rw [if_neg hy] at h
      obtain ⟨hx, l1, l2, hl, hlast⟩ := ih x h
      refine ⟨hx, l1, l2 ++ [y], ?_, ?_⟩
      · rw [hl, List.append_assoc, List.cons_append]
      · intro z hz
        rcases List.mem_append.mp hz with hz | hz
        · exact hlast z hz
        · rw [List.mem_singleton.mp hz]
          exact hy

theorem lastTreeFor_exists (E : ViewEnv) (U : URI) :
    ∀ (trees : List (Ptr × Option AstFile)),
      (∃ y ∈ trees, (populatedName E y).map E.toURI = some U) →
      ∃ x, lastTreeFor E U trees = some x := by
  intro trees
  induction trees using List.reverseRecOn with
  | nil =>
    rintro ⟨y, hy, _⟩
    exact absurd hy (List.not_mem_nil _)
  | append_singleton l y ih =>
    rintro ⟨z, hz, hzU⟩
    rw [lastTreeFor_concat]
    by_cases hy : (populatedName E y).map E.toURI = some U
    · rw [if_pos hy]
      exact ⟨y, rfl⟩
    · rw [if_neg hy]
      apply ih
      rcases List.mem_append.mp hz with hz | hz
      · exact ⟨z, hz, hzU⟩
      · rw [List.mem_singleton.mp hz] at hzU
        exact absurd hzU hy

theorem populate_other_file (E : ViewEnv) (v : View) (hwf : v.WF) (pkg : Ptr)
    (fAST : Option AstFile) (U : URI)
    (hne : (populatedName E (pkg, fAST)).map E.toURI ≠ some U) (f : FilePtr) (x : File)
    (hf : v.files.get U = some f) (hx : v.file f = some x) :
    (v.populate E pkg fAST).files.get U = some f ∧ (v.populate E pkg fAST).file f = some x := by
  cases hn : populatedName E (pkg, fAST) with
  | none =>
    rw [populate_skip E v pkg fAST hn]
    exact ⟨hf, hx⟩
  | some m =>
    rw [hn] at hne
    have hmU : E.toURI m ≠ U := fun e => hne (by rw [Option.map_some', e])
    obtain ⟨ast, tok, rfl, htok, rfl⟩ := populatedName_some hn
    obtain ⟨file0, hfile, _⟩ := getFile_file v hwf (E.toURI tok.Name)
    rw [populate_some E v pkg ast tok file0 htok hfile]
    have hwf1 := getFile_WF v hwf (E.toURI tok.Name)
    have hf1 := getFile_files_mono v (E.toURI tok.Name) hf
    have hx1 := getFile_file_mono v (E.toURI tok.Name) hx
    have hfne : (v.getFile (E.toURI tok.Name)).1 ≠ f := by
      intro e
      exact hmU (hwf1.2 _ _ f (e ▸ getFile_registers v (E.toURI tok.Name)) hf1)
    refine ⟨hf1, ?_⟩
    unfold View.file at hx1 ⊢
    dsimp only
    rw [List.getElem?_set_ne hfne]
    exact hx1

theorem populate_HoldsTree_self (E : ViewEnv) (v : View) (hwf : v.WF) (pkg : Ptr)
    (fAST : Option AstFile) (U : URI)
    (hU : (populatedName E (pkg, fAST)).map E.toURI = some U) :
    (v.populate E pkg fAST).HoldsTree E U (pkg, fAST) := by
  cases hn : populatedName E (pkg, fAST) with
  | none =>
    rw [hn] at hU
    exact Option.noConfusion hU
  | some m =>
    rw [hn, Option.map_some'] at hU
    have hmU : E.toURI m = U := Option.some.inj hU
    obtain ⟨ast, tok, rfl, htok, rfl⟩ := populatedName_some hn
    obtain ⟨file0, hfile, _⟩ := getFile_file v hwf (E.toURI tok.Name)
    rw [populate_some E v pkg ast tok file0 htok hfile]
    refine ⟨(v.getFile (E.toURI tok.Name)).1, populatedFile v.tempOverlay file0 pkg ast tok,
      ast, tok, ?_, ?_, rfl, htok, rfl, rfl, rfl⟩
    · rw [← hmU]
      exact getFile_registers v _
    · unfold View.file
      dsimp only
      exact List.getElem?_set_self (file_some_lt hfile)

theorem populate_HoldsTree_other (E : ViewEnv) (v : View) (hwf : v.WF) (pkg : Ptr)
    (fAST : Option AstFile) (U : URI) (x : Ptr × Option AstFile)
    (hne : (populatedName E (pkg, fAST)).map E.toURI ≠ some U) (h : v.HoldsTree E U x) :
    (v.populate E pkg fAST).HoldsTree E U x := by
  obtain ⟨f, file, ast, tok, hf, hfile, h1, h2, h3, h4, h5⟩ := h
  obtain ⟨hf2, hfile2⟩ := populate_other_file E v hwf pkg fAST U hne f file hf hfile
  exact ⟨f, file, ast, tok, hf2, hfile2, h1, h2, h3, h4, h5⟩

/-- After the loops ran over `trees`, the File under every URI carries the data of the last pair
that populated it. -/
theorem foldl_populate_last (E : ViewEnv) (v0 : View) (hwf : v0.WF) :
    ∀ (trees : List (Ptr × Option AstFile)),
      (trees.foldl (fun w x => w.populate E x.1 x.2) v0).WF ∧
        ∀ U x, lastTreeFor E U trees = some x →
          (trees.foldl (fun w x => w.populate E x.1 x.2) v0).HoldsTree E U x := by
  intro trees
  induction trees using List.reverseRecOn with
  | nil =>
    refine ⟨hwf, ?_⟩
    intro U x h
    simp [lastTreeFor] at h
  | append_singleton l y ih =>
    obtain ⟨hwfl, hl⟩ := ih
    rw [List.foldl_append]
    refine ⟨populate_WF E _ hwfl y.1 y.2, ?_⟩
    intro U x h
    rw [lastTreeFor_concat] at h
    by_cases hy : (populatedName E y).map E.toURI = some U
    · rw [if_pos hy] at h
      cases h
      exact populate_HoldsTree_self E _ hwfl y.1 y.2 U hy
    · rw [if_neg hy] at h
      exact populate_HoldsTree_other E _ hwfl y.1 y.2 U x hy (hl U x h)

/-- C17: when a load returns several units whose syntax lists contain the same file, the last one
in traversal order wins: after a `parse` that returns no error, the File under each populated URI
carries the syntax tree, token file and owning unit of the last (unit, tree) pair of the traversal
that populates that File, and every populated file has such a pair. -/
theorem parse_last_unit_wins (E : ViewEnv) (v v2 : View) (uri : URI) (path : String)
    (hwf : v.WF) (hpath : E.uriFilename uri = Except.ok path)
    (hparse : v.parse E uri = (none, v2)) :
    (∀ U x, lastTreeFor E U
        (treesOf E (E.packagesLoad (E.getLoadDir path) ("file=" ++ path)).pkgs) = some x →
      v2.HoldsTree E U x ∧
        (populatedName E x).map E.toURI = some U ∧
        ∃ l1 l2, treesOf E (E.packagesLoad (E.getLoadDir path) ("file=" ++ path)).pkgs =
            l1 ++ x :: l2 ∧
          ∀ z ∈ l2, (populatedName E z).map E.toURI ≠ some U) ∧
    (∀ y ∈ treesOf E (E.packagesLoad (E.getLoadDir path) ("file=" ++ path)).pkgs,
      ∀ n, populatedName E y = some n →
        ∃ x, lastTreeFor E (E.toURI n)
          (treesOf E (E.packagesLoad (E.getLoadDir path) ("file=" ++ path)).pkgs) = some x) := by
  have hfiles := runHooks_files (E.packagesLoad (E.getLoadDir path) ("file=" ++ path)).parsed
    ({ v with ConfigDir := E.getLoadDir path } : View)
  have hstart := WF_of_files_eq hfiles.1 hfiles.2 hwf
  constructor
  · intro U x hlast
    refine ⟨?_, lastTreeFor_spec E U _ x hlast⟩
    rw [parse_ok E v v2 uri path hpath hparse, populateAll_eq_foldl_treesOf]
    exact (foldl_populate_last E _ hstart _).2 U x hlast
  · intro y hy n hn
    exact lastTreeFor_exists E (E.toURI n) _ ⟨y, hy, by rw [hn]; rfl⟩

theorem parse_last_unit_wins_witness :
    (NewView.parse twoUnitsEnv "file:///r/a/a.go").2.HoldsTree twoUnitsEnv "file:///r/a/a.go"
        (1, some { Pos := 2 }) ∧
      (populatedName twoUnitsEnv (1, some { Pos := 2 })).map twoUnitsEnv.toURI =
        some "file:///r/a/a.go" ∧
      ∃ l1 l2, treesOf twoUnitsEnv
          (twoUnitsEnv.packagesLoad (twoUnitsEnv.getLoadDir "/r/a/a.go")
            ("file=" ++ "/r/a/a.go")).pkgs = l1 ++ (1, some { Pos := 2 }) :: l2 ∧
        ∀ z ∈ l2, (populatedName twoUnitsEnv z).map twoUnitsEnv.toURI ≠
          some "file:///r/a/a.go" :=
  (parse_last_unit_wins twoUnitsEnv NewView (NewView.parse twoUnitsEnv "file:///r/a/a.go").2
    "file:///r/a/a.go" "/r/a/a.go" NewView_WF (by rfl) (by decide)).1 "file:///r/a/a.go"
    (1, some { Pos := 2 }) (by decide)

end Bingo
